import Mathlib

/-!
# Brainfuck interpreter (`src/main.c`): shallow embedding and verified properties

The C program is embedded as pure Lean functions.

* A `Token` is the C `struct Token`; the anonymous union is kept as separate
  fields (`value` for the leaf kinds, `children`/`reservedChildren` for the
  container kinds), `children = none` is the NULL pointer and `nbChildren` is
  the length of the child list.
* A `FILE *` is the list of characters still to be read; `fgetc` takes the
  head and yields `EOF` on the empty list.
* C `int` is a mathematical integer brought back into the 32-bit range by
  `wrapInt` after every arithmetic operation; `size_t` is 64 bits wide.
* `exit(1)` is the outcome `exit1`, an access outside the tape (or a read of
  an uninitialised cell) is the outcome `undefined`, and the recursive
  functions carry a fuel argument whose exhaustion is the outcome `outOfFuel`.
* `malloc`/`realloc` are taken to succeed; `tokenFree` and `dataFree` only
  release storage and have no counterpart.
-/

namespace Brainfuck

/-! ## Outcomes -/

/-- The three diagnostics after which the program calls `exit(1)`. -/
inductive Fatal where
  | parentNotContainer
  | childrenNull
  | unterminatedLoop
  deriving DecidableEq, Repr

/-- What a call produces: a value, a fatal exit, undefined behaviour, or an
embedding that ran out of fuel. -/
inductive Outcome (α : Type) where
  | ok (a : α)
  | exit1 (e : Fatal)
  | undefined
  | outOfFuel
  deriving DecidableEq, Repr

/-! ## Tokens (lines 6-74) -/

inductive TokenType where
  | NOOP_TOKEN
  | MAIN_BLOCK_TOKEN
  | MOVE_TOKEN
  | INCREMENT_TOKEN
  | INPUT_TOKEN
  | OUTPUT_TOKEN
  | LOOP_TOKEN
  deriving DecidableEq, Repr

inductive Token where
  | mk (type : TokenType) (value : Int) (children : Option (List Token))
      (reservedChildren : Nat)
  deriving Repr

namespace Token

def type : Token → TokenType
  | mk t _ _ _ => t

def value : Token → Int
  | mk _ v _ _ => v

def children : Token → Option (List Token)
  | mk _ _ cs _ => cs

def reservedChildren : Token → Nat
  | mk _ _ _ r => r

/-- The field `nbChildren`: the number of children stored. -/
def nbChildren (t : Token) : Nat :=
  match t.children with
  | none => 0
  | some cs => cs.length

/-- Assignment to the field `value`. -/
def setValue (t : Token) (v : Int) : Token :=
  mk t.type v t.children t.reservedChildren

end Token

/-- Conversion of a mathematical integer to a 32-bit two's complement `int`. -/
def wrapInt (z : Int) : Int := (z + 2147483648) % 4294967296 - 2147483648

/-- The struct after `memset(token, 0, sizeof(Token))`. -/
def zeroToken : Token := Token.mk .NOOP_TOKEN 0 none 0

/-- Embedding of `tokenInit` (lines 28-36). -/
def tokenInit (type : TokenType) : Token :=
  if type = .MAIN_BLOCK_TOKEN ∨ type = .LOOP_TOKEN then
    Token.mk type 0 (some []) 20
  else
    Token.mk type 0 none 0

/-- Embedding of `tokenAppend` (lines 48-74): returns the parent and the child
as the call leaves them. -/
def tokenAppend (parent child : Token) : Outcome (Token × Token) :=
  if child.type = .NOOP_TOKEN then .ok (parent, child)
  else if parent.type ≠ .MAIN_BLOCK_TOKEN ∧ parent.type ≠ .LOOP_TOKEN then
    .exit1 .parentNotContainer
  else
    match parent.children with
    | none => .exit1 .childrenNull
    | some cs =>
      let reserved :=
        if cs.length ≥ parent.reservedChildren then parent.reservedChildren * 2
        else parent.reservedChildren
      .ok (Token.mk parent.type parent.value (some (cs ++ [child])) reserved, zeroToken)

/-! ## Tokenizer (lines 76-144) -/

/-- The statement pair `tokenAppend(parentToken, &current); tokenInit(&current, t);`. -/
def flushInit (parent current : Token) (t : TokenType) : Outcome (Token × Token) :=
  match tokenAppend parent current with
  | .ok (p, _) => .ok (p, tokenInit t)
  | .exit1 e => .exit1 e
  | .undefined => .undefined
  | .outOfFuel => .outOfFuel

/-- The guarded statement `if (current.type != t) { tokenAppend(..); tokenInit(..); }`. -/
def startRun (parent current : Token) (t : TokenType) : Outcome (Token × Token) :=
  if current.type ≠ t then flushInit parent current t else .ok (parent, current)

/-- The `for (;;)` loop of `tokenizer` with the local `current` made explicit.
Returns the status, the rest of the stream and the parent. -/
def tokenizerLoop : Nat → List Char → Token → Token → Outcome (Bool × List Char × Token)
  | 0, _, _, _ => .outOfFuel
  | _ + 1, [], parent, current =>
    match tokenAppend parent current with
    | .ok (p, _) => .ok (true, [], p)
    | .exit1 e => .exit1 e
    | .undefined => .undefined
    | .outOfFuel => .outOfFuel
  | fuel + 1, c :: file, parent, current =>
    if c = ']' then
      match tokenAppend parent current with
      | .ok (p, _) => .ok (false, file, p)
      | .exit1 e => .exit1 e
      | .undefined => .undefined
      | .outOfFuel => .outOfFuel
    else if c = '+' then
      match startRun parent current .INCREMENT_TOKEN with
      | .ok (p, cur) => tokenizerLoop fuel file p (cur.setValue (wrapInt (cur.value + 1)))
      | .exit1 e => .exit1 e
      | .undefined => .undefined
      | .outOfFuel => .outOfFuel
    else if c = '-' then
      match startRun parent current .INCREMENT_TOKEN with
      | .ok (p, cur) => tokenizerLoop fuel file p (cur.setValue (wrapInt (cur.value - 1)))
      | .exit1 e => .exit1 e
      | .undefined => .undefined
      | .outOfFuel => .outOfFuel
    else if c = '>' then
      match startRun parent current .MOVE_TOKEN with
      | .ok (p, cur) => tokenizerLoop fuel file p (cur.setValue (wrapInt (cur.value + 1)))
      | .exit1 e => .exit1 e
      | .undefined => .undefined
      | .outOfFuel => .outOfFuel
    else if c = '<' then
      match startRun parent current .MOVE_TOKEN with
      | .ok (p, cur) => tokenizerLoop fuel file p (cur.setValue (wrapInt (cur.value - 1)))
      | .exit1 e => .exit1 e
      | .undefined => .undefined
      | .outOfFuel => .outOfFuel
    else if c = ',' then
      match flushInit parent current .INPUT_TOKEN with
      | .ok (p, cur) => tokenizerLoop fuel file p cur
      | .exit1 e => .exit1 e
      | .undefined => .undefined
      | .outOfFuel => .outOfFuel
    else if c = '.' then
      match flushInit parent current .OUTPUT_TOKEN with
      | .ok (p, cur) => tokenizerLoop fuel file p cur
      | .exit1 e => .exit1 e
      | .undefined => .undefined
      | .outOfFuel => .outOfFuel
    else if c = '[' then
      match flushInit parent current .LOOP_TOKEN with
      | .ok (p, cur) =>
        match tokenizerLoop fuel file cur (tokenInit .NOOP_TOKEN) with
        | .ok (true, _, _) => .exit1 .unterminatedLoop
        | .ok (false, file', cur') => tokenizerLoop fuel file' p cur'
        | .exit1 e => .exit1 e
        | .undefined => .undefined
        | .outOfFuel => .outOfFuel
      | .exit1 e => .exit1 e
      | .undefined => .undefined
      | .outOfFuel => .outOfFuel
    else tokenizerLoop fuel file parent current

/-- Embedding of `tokenizer` (lines 76-144): `current` starts as a NOOP token.
Every turn of the loop reads a character, so the length of the stream plus
one is enough fuel. -/
def tokenizer (file : List Char) (parentToken : Token) : Outcome (Bool × List Char × Token) :=
  tokenizerLoop (file.length + 1) file parentToken (tokenInit .NOOP_TOKEN)

/-! ## Tape (lines 146-198) -/

/-- One `unsigned char` of the tape; `none` is a cell of a `malloc` block that
was never written (indeterminate content). -/
abbrev Cell := Option Nat

/-- The C `struct Data`: `numbers` is the allocated block, `position` an `int`,
`size` a `size_t`. -/
structure Data where
  numbers : List Cell
  position : Int
  size : Nat
  deriving DecidableEq, Repr

/-- The block `numbers` holds exactly `size` cells. -/
def Data.wf (data : Data) : Prop := data.numbers.length = data.size

/-- The field `position` is an index into the block. -/
def Data.valid (data : Data) : Prop := 0 ≤ data.position ∧ data.position < data.size

instance (data : Data) : Decidable data.wf := by unfold Data.wf; infer_instance

instance (data : Data) : Decidable data.valid := by unfold Data.valid; infer_instance

/-- Conversion of an `int` to `size_t` (64 bits). -/
def toSizeT (z : Int) : Nat := (z % 18446744073709551616).toNat

/-- Conversion of an `int` to `unsigned char`. -/
def toUChar (z : Int) : Nat := (z % 256).toNat

/-- Embedding of `dataInit` (lines 152-156): `calloc` gives zeroed cells. -/
def dataInit : Data :=
  { size := 200, position := 100, numbers := List.replicate 200 (some 0) }

/-- Embedding of `dataSet` (lines 162-164). -/
def dataSet (data : Data) (value : Nat) : Outcome Data :=
  if 0 ≤ data.position ∧ data.position.toNat < data.numbers.length then
    .ok { data with numbers := data.numbers.set data.position.toNat (some value) }
  else .undefined

/-- Embedding of `dataGet` (lines 166-168). -/
def dataGet (data : Data) : Outcome Nat :=
  if 0 ≤ data.position then
    match data.numbers[data.position.toNat]? with
    | some (some x) => .ok x
    | _ => .undefined
  else .undefined

/-- Embedding of `dataIncrement` (lines 170-173): the sum is an `int`, `%` is
the truncating remainder of C, and the assignment to `result` converts to
`unsigned char`. -/
def dataIncrement (data : Data) (value : Int) : Outcome Data :=
  match dataGet data with
  | .ok x =>
    let result := toUChar (Int.tmod (wrapInt (value + (x : Int))) 256)
    dataSet data result
  | .exit1 e => .exit1 e
  | .undefined => .undefined
  | .outOfFuel => .outOfFuel

/-- Embedding of `dataMove` (lines 175-198). In `data->position >= data->size`
the `int` is converted to `size_t`. The `realloc` keeps the old cells and the
`memset` zeroes the 200 new ones; the `malloc` of the second branch leaves its
first 200 cells unwritten. -/
def dataMove (data : Data) (value : Int) : Data :=
  let position := wrapInt (data.position + value)
  if toSizeT position ≥ data.size then
    { numbers := data.numbers ++ List.replicate 200 (some 0)
      position := position
      size := data.size + 200 }
  else if position < 0 then
    { numbers := List.replicate 200 none ++ data.numbers
      position := position
      size := data.size + 200 }
  else { data with position := position }

/-! ## Interpreter (lines 200-244) -/

/-- The tape together with the two standard streams: the bytes still to be
read from `stdin` and the bytes written to `stdout` so far. -/
structure World where
  data : Data
  stdin : List Nat
  stdout : List Nat
  deriving DecidableEq, Repr

/-- The value `fgetc` returns on a stream: the next byte, or `EOF` (-1). -/
def fgetc : List Nat → Int × List Nat
  | [] => (-1, [])
  | b :: rest => ((b : Int), rest)

/-- The loop `for (i = 0; i < nbChildren; i++) execute(data, &children[i]);`
over the children, `exec` being the recursive call. -/
def forChildren (exec : Token → World → Outcome World) : List Token → World → Outcome World
  | [], w => .ok w
  | t :: ts, w =>
    match exec t w with
    | .ok w' => forChildren exec ts w'
    | .exit1 e => .exit1 e
    | .undefined => .undefined
    | .outOfFuel => .outOfFuel

/-- The child list a container token is iterated over (`nbChildren` entries). -/
def Token.childList (t : Token) : List Token :=
  match t.children with
  | none => []
  | some cs => cs

/-- Embedding of `execute` (lines 200-244). Each call and each turn of the
`while` loop takes one unit of fuel. The unused local `test` and the
unreachable `default` case have no counterpart. -/
def execute : Nat → Token → World → Outcome World
  | 0, _, _ => .outOfFuel
  | fuel + 1, token, w =>
    match token.type with
    | .NOOP_TOKEN => .ok w
    | .MAIN_BLOCK_TOKEN => forChildren (execute fuel) token.childList w
    | .INCREMENT_TOKEN =>
      match dataIncrement w.data token.value with
      | .ok d => .ok { w with data := d }
      | .exit1 e => .exit1 e
      | .undefined => .undefined
      | .outOfFuel => .outOfFuel
    | .MOVE_TOKEN => .ok { w with data := dataMove w.data token.value }
    | .INPUT_TOKEN =>
      match dataSet w.data (toUChar (fgetc w.stdin).1) with
      | .ok d => .ok { w with data := d, stdin := (fgetc w.stdin).2 }
      | .exit1 e => .exit1 e
      | .undefined => .undefined
      | .outOfFuel => .outOfFuel
    | .OUTPUT_TOKEN =>
      match dataGet w.data with
      | .ok x => .ok { w with stdout := w.stdout ++ [x] }
      | .exit1 e => .exit1 e
      | .undefined => .undefined
      | .outOfFuel => .outOfFuel
    | .LOOP_TOKEN =>
      match dataGet w.data with
      | .ok x =>
        if x ≠ 0 then
          match forChildren (execute fuel) token.childList w with
          | .ok w' => execute fuel token w'
          | .exit1 e => .exit1 e
          | .undefined => .undefined
          | .outOfFuel => .outOfFuel
        else .ok w
      | .exit1 e => .exit1 e
      | .undefined => .undefined
      | .outOfFuel => .outOfFuel

/-- Number of times the body of the `while` loop of a LOOP token is run
(lines 233-237), counted along the same recursion as `execute`. -/
def loopIterations : Nat → Token → World → Outcome Nat
  | 0, _, _ => .outOfFuel
  | fuel + 1, token, w =>
    match dataGet w.data with
    | .ok x =>
      if x ≠ 0 then
        match forChildren (execute fuel) token.childList w with
        | .ok w' =>
          match loopIterations fuel token w' with
          | .ok n => .ok (n + 1)
          | .exit1 e => .exit1 e
          | .undefined => .undefined
          | .outOfFuel => .outOfFuel
        | .exit1 e => .exit1 e
        | .undefined => .undefined
        | .outOfFuel => .outOfFuel
      else .ok 0
    | .exit1 e => .exit1 e
    | .undefined => .undefined
    | .outOfFuel => .outOfFuel

/-- The world after `k` turns of the `while` loop of a LOOP token, run as
`execute` runs them: every turn is the `for` loop over the children, each child
run by `execute`, and takes one unit of the fuel of the call. The tests of the
current cell are left out. -/
def loopBodyRuns : Nat → Token → Nat → World → Outcome World
  | _, _, 0, w => .ok w
  | 0, _, _ + 1, _ => .outOfFuel
  | fuel + 1, token, k + 1, w =>
    match forChildren (execute fuel) token.childList w with
    | .ok w' => loopBodyRuns fuel token k w'
    | .exit1 e => .exit1 e
    | .undefined => .undefined
    | .outOfFuel => .outOfFuel

/-! ## Driver (lines 246-274) -/

/-- What the process leaves behind: exit status, bytes on `stdout`, and the
diagnostic of a fatal exit. -/
structure ProcessResult where
  status : Nat
  stdout : List Nat
  diagnostic : Option Fatal
  deriving DecidableEq, Repr

/-- Embedding of `main` from line 261 on, the source file being open: the
status of `tokenizer` is discarded, a fatal exit of `tokenizer` ends the
process before `execute` is reached. -/
def main (fuel : Nat) (file : List Char) (stdin : List Nat) : Outcome ProcessResult :=
  match tokenizer file (tokenInit .MAIN_BLOCK_TOKEN) with
  | .ok (_, _, mainBlock) =>
    match execute fuel mainBlock { data := dataInit, stdin := stdin, stdout := [] } with
    | .ok w => .ok { status := 0, stdout := w.stdout, diagnostic := none }
    | .exit1 e => .exit1 e
    | .undefined => .undefined
    | .outOfFuel => .outOfFuel
  | .exit1 e => .ok { status := 1, stdout := [], diagnostic := some e }
  | .undefined => .undefined
  | .outOfFuel => .outOfFuel


/-! ## Notions used to state the properties of the tokenizer -/

/-- What one turn of the `for (;;)` loop of `tokenizer` does to the parent and
to `current` on a character other than `[` and `]` (the `switch`, lines 90-132
and the missing `default`). -/
def switchStep (c : Char) (parent current : Token) : Outcome (Token × Token) :=
  if c = '+' then
    match startRun parent current .INCREMENT_TOKEN with
    | .ok (p, cur) => .ok (p, cur.setValue (wrapInt (cur.value + 1)))
    | .exit1 e => .exit1 e
    | .undefined => .undefined
    | .outOfFuel => .outOfFuel
  else if c = '-' then
    match startRun parent current .INCREMENT_TOKEN with
    | .ok (p, cur) => .ok (p, cur.setValue (wrapInt (cur.value - 1)))
    | .exit1 e => .exit1 e
    | .undefined => .undefined
    | .outOfFuel => .outOfFuel
  else if c = '>' then
    match startRun parent current .MOVE_TOKEN with
    | .ok (p, cur) => .ok (p, cur.setValue (wrapInt (cur.value + 1)))
    | .exit1 e => .exit1 e
    | .undefined => .undefined
    | .outOfFuel => .outOfFuel
  else if c = '<' then
    match startRun parent current .MOVE_TOKEN with
    | .ok (p, cur) => .ok (p, cur.setValue (wrapInt (cur.value - 1)))
    | .exit1 e => .exit1 e
    | .undefined => .undefined
    | .outOfFuel => .outOfFuel
  else if c = ',' then flushInit parent current .INPUT_TOKEN
  else if c = '.' then flushInit parent current .OUTPUT_TOKEN
  else .ok (parent, current)

/-- The eight command symbols; every other character is comment text. -/
def isCommand (c : Char) : Bool :=
  c = '+' || c = '-' || c = '>' || c = '<' || c = ',' || c = '.' || c = '[' || c = ']'

/-- The parse outcome of a source: the status and the tree, a fatal exit
included, without the unread rest of the stream. -/
def parseOutcome (file : List Char) (parentToken : Token) : Outcome (Bool × Token) :=
  match tokenizer file parentToken with
  | .ok (status, _, tree) => .ok (status, tree)
  | .exit1 e => .exit1 e
  | .undefined => .undefined
  | .outOfFuel => .outOfFuel

/-- No `]` without an earlier `[` open at `depth` levels of nesting: every
prefix has at most `depth` more `]` than `[`. -/
def NoStrayClose (depth : Nat) (s : List Char) : Prop :=
  ∀ n, n ≤ s.length → (s.take n).count ']' ≤ depth + (s.take n).count '['

instance (depth : Nat) (s : List Char) : Decidable (NoStrayClose depth s) := by
  unfold NoStrayClose; infer_instance

/-- Balanced brackets: every prefix has at least as many `[` as `]`, and the
totals are equal. -/
def Balanced (s : List Char) : Prop :=
  NoStrayClose 0 s ∧ s.count '[' = s.count ']'

instance (s : List Char) : Decidable (Balanced s) := by
  unfold Balanced; infer_instance

/-- The source has an unmatched `[`: some `[` after which nothing closes it
(what follows never has more `]` than `[`). -/
def HasUnmatchedOpen (s : List Char) : Prop :=
  ∃ i, i < s.length ∧ s[i]? = some '[' ∧ NoStrayClose 0 (s.drop (i + 1))

instance (s : List Char) : Decidable (HasUnmatchedOpen s) := by
  unfold HasUnmatchedOpen; infer_instance

/-- How a call of `tokenizer` ends, as read off the brackets alone. -/
inductive Scan where
  | eof
  | closed (rest : List Char)
  | unterminated
  deriving DecidableEq, Repr

/-- Bracket scan of a stream with `depth` loops open below the call considered:
`eof` when the stream ends at depth 0, `closed rest` when a `]` is met at depth
0, `unterminated` when the stream ends inside a loop. -/
def scan : Nat → List Char → Scan
  | depth, [] => if depth = 0 then .eof else .unterminated
  | depth, c :: s =>
    if c = ']' then
      if depth = 0 then .closed s else scan (depth - 1) s
    else if c = '[' then scan (depth + 1) s
    else scan depth s

/-- A parent `tokenAppend` accepts: a container kind with allocated children. -/
def Token.isParent (t : Token) : Prop :=
  (t.type = .MAIN_BLOCK_TOKEN ∨ t.type = .LOOP_TOKEN) ∧ t.children ≠ none

/-- Forget the comment characters of the unread rest of the stream in the
result of a tokenizer call. -/
def stripRest : Outcome (Bool × List Char × Token) → Outcome (Bool × List Char × Token)
  | .ok (status, rest, tree) => .ok (status, rest.filter isCommand, tree)
  | .exit1 e => .exit1 e
  | .undefined => .undefined
  | .outOfFuel => .outOfFuel

/-- The call returned or ended the process: it neither ran out of fuel nor
left defined behaviour. -/
def Outcome.isResult {α : Type} : Outcome α → Prop
  | .ok _ => True
  | .exit1 _ => True
  | .undefined => False
  | .outOfFuel => False

/-! ## Notions used to state the properties of the tree -/

/-- The token with its kind and value replaced, children and capacity kept. -/
def Token.withKind (t : Token) (type : TokenType) (value : Int) : Token :=
  Token.mk type value t.children t.reservedChildren

/-- Apply a function to the tree in the result of a tokenizer call. -/
def mapTree (f : Token → Token) :
    Outcome (Bool × List Char × Token) → Outcome (Bool × List Char × Token)
  | .ok (status, rest, tree) => .ok (status, rest, f tree)
  | .exit1 e => .exit1 e
  | .undefined => .undefined
  | .outOfFuel => .outOfFuel

mutual
/-- A finalized tree: no token of kind NOOP at any depth, and a token with a
child array is a MAIN_BLOCK or LOOP token. -/
def Token.finalized : Token → Bool
  | Token.mk t _ none _ => t != .NOOP_TOKEN
  | Token.mk t _ (some cs) _ =>
    t != .NOOP_TOKEN && (t == .MAIN_BLOCK_TOKEN || t == .LOOP_TOKEN) && finalizedList cs
/-- Every token of the list is finalized. -/
def finalizedList : List Token → Bool
  | [] => true
  | t :: ts => t.finalized && finalizedList ts
end

/-- The pending token `current` of the tokenizer is either a NOOP token or a
finalized one. -/
def Pending (c : Token) : Prop := c.type = .NOOP_TOKEN ∨ c.finalized = true

/-! # Theorems -/

/-! ## Machine arithmetic -/

theorem wrapInt_of_range (z : Int) (h1 : -2147483648 ≤ z) (h2 : z ≤ 2147483647) :
    wrapInt z = z := by
  unfold wrapInt; omega

theorem wrapInt_wrapInt_add (a b : Int) : wrapInt (wrapInt a + b) = wrapInt (a + b) := by
  unfold wrapInt; omega

theorem wrapInt_range (z : Int) : -2147483648 ≤ wrapInt z ∧ wrapInt z ≤ 2147483647 := by
  unfold wrapInt; omega

theorem toUChar_tmod_wrapInt (z : Int) :
    toUChar (Int.tmod (wrapInt z) 256) = (z % 256).toNat := by
  unfold toUChar
  have h : Int.tmod (wrapInt z) 256 % 256 = z % 256 := by
    rw [Int.tmod_def]
    unfold wrapInt
    omega
  rw [h]

theorem toUChar_lt (z : Int) : toUChar z < 256 := by
  unfold toUChar; omega

/-! ## Reading and writing the current cell -/

theorem dataGet_eq_ok {data : Data} {x : Nat} :
    dataGet data = .ok x ↔
      0 ≤ data.position ∧ data.numbers[data.position.toNat]? = some (some x) := by
  unfold dataGet
  by_cases hp : 0 ≤ data.position
  · simp only [hp, if_true, true_and]
    cases hc : data.numbers[data.position.toNat]? with
    | none => simp
    | some c =>
      cases c with
      | none => simp
      | some y => simp
  · simp [hp]

theorem dataGet_index_lt {data : Data} {x : Nat} (h : dataGet data = .ok x) :
    data.position.toNat < data.numbers.length := by
  have h2 := (dataGet_eq_ok.mp h).2
  by_contra hlt
  rw [List.getElem?_eq_none (by omega)] at h2
  cases h2

theorem dataSet_eq_ok {data : Data} {x : Nat} (h : dataGet data = .ok x) (v : Nat) :
    dataSet data v =
      .ok { data with numbers := data.numbers.set data.position.toNat (some v) } := by
  unfold dataSet
  rw [if_pos ⟨(dataGet_eq_ok.mp h).1, dataGet_index_lt h⟩]

theorem dataGet_set {data : Data} {x : Nat} (h : dataGet data = .ok x) (v : Nat) :
    dataGet { data with numbers := data.numbers.set data.position.toNat (some v) } = .ok v := by
  rw [dataGet_eq_ok]
  refine ⟨(dataGet_eq_ok.mp h).1, ?_⟩
  simp [List.getElem?_set_self, dataGet_index_lt h]

theorem dataIncrement_eq_ok {data : Data} {x : Nat} (h : dataGet data = .ok x) (v : Int) :
    dataIncrement data v =
      .ok { data with numbers :=
              data.numbers.set data.position.toNat (some ((v + (x : Int)) % 256).toNat) } := by
  unfold dataIncrement
  rw [h]
  simp only [toUChar_tmod_wrapInt]
  exact dataSet_eq_ok h _

set_option maxRecDepth 8000 in
theorem dataGet_dataInit : dataGet dataInit = .ok 0 := by
  decide

/-- C1: when the current cell holds `x` (so the position is a valid index) and
`x + v` is representable as an `int`, `dataIncrement` succeeds and leaves in the
current cell the value `r` with `0 ≤ r < 256` and `r = (x + v) mod 256`
(mathematical modulo); position and size are untouched. -/
theorem dataIncrement_mod256 (data : Data) (x : Nat) (v : Int)
    (hcell : dataGet data = .ok x) (_hx : x < 256)
    (_hlo : -2147483648 ≤ (x : Int) + v) (_hhi : (x : Int) + v ≤ 2147483647) :
    ∃ data' r, dataIncrement data v = .ok data' ∧ dataGet data' = .ok r ∧
      r < 256 ∧ (r : Int) = ((x : Int) + v) % 256 ∧
      (∀ r' : Nat, r' < 256 → ((r' : Int) - ((x : Int) + v)) % 256 = 0 → r' = r) ∧
      data'.position = data.position ∧ data'.size = data.size := by
  refine ⟨_, ((v + (x : Int)) % 256).toNat, dataIncrement_eq_ok hcell v, dataGet_set hcell _,
    by omega, by omega, ?_, rfl, rfl⟩
  intro r' h1 h2
  omega

/-- C1 at the example of the specification: cell 0 incremented by -1 holds 255. -/
theorem dataIncrement_mod256_witness :
    ∃ data', dataIncrement dataInit (-1) = .ok data' ∧ dataGet data' = .ok 255 := by
  obtain ⟨data', r, h1, h2, _, h4, _⟩ :=
    dataIncrement_mod256 dataInit 0 (-1) dataGet_dataInit (by decide) (by decide) (by decide)
  have hr : r = 255 := by omega
  subst hr
  exact ⟨data', h1, h2⟩


/-! ## Runs of `+`/`-` and of `>`/`<` -/

theorem tokenizerLoop_increment_run (file : List Char) :
    ∀ (fuel : Nat) (v : Int), (∀ c ∈ file, c = '+' ∨ c = '-') → file.length < fuel →
      tokenizerLoop fuel file (tokenInit .MAIN_BLOCK_TOKEN)
          (Token.mk .INCREMENT_TOKEN (wrapInt v) none 0) =
        .ok (true, [], Token.mk .MAIN_BLOCK_TOKEN 0
          (some [Token.mk .INCREMENT_TOKEN
            (wrapInt (v + (file.count '+' : Int) - (file.count '-' : Int))) none 0]) 20) := by
  induction file with
  | nil =>
    intro fuel v _ hfuel
    obtain ⟨n, rfl⟩ : ∃ n, fuel = n + 1 := ⟨fuel - 1, by simp at hfuel; omega⟩
    simp [tokenizerLoop, tokenAppend, tokenInit, Token.type, Token.children, Token.value,
      Token.reservedChildren, zeroToken]
  | cons c file ih =>
    intro fuel v hc hfuel
    obtain ⟨n, rfl⟩ : ∃ n, fuel = n + 1 := ⟨fuel - 1, by simp at hfuel; omega⟩
    have hrest : ∀ c ∈ file, c = '+' ∨ c = '-' := fun c h => hc c (List.mem_cons_of_mem _ h)
    have hlen : file.length < n := by simp at hfuel; omega
    rcases hc c (List.mem_cons_self _ _) with rfl | rfl
    · have h := ih n (v + 1) hrest hlen
      simp only [tokenizerLoop, startRun, Token.type, Token.setValue, Token.value,
        Token.children, Token.reservedChildren]
      simp only [show ('+' = ']') = False by decide, if_false, if_true, ne_eq,
        not_true_eq_false]
      rw [wrapInt_wrapInt_add, h]
      simp only [List.count_cons_self, List.count_cons_of_ne (show '-' ≠ '+' by decide)]
      congr 6
      push_cast
      ring_nf
    · have h := ih n (v - 1) hrest hlen
      simp only [tokenizerLoop, startRun, Token.type, Token.setValue, Token.value,
        Token.children, Token.reservedChildren]
      simp only [show ('-' = ']') = False by decide, show ('-' = '+') = False by decide,
        if_false, if_true, ne_eq, not_true_eq_false]
      rw [show wrapInt (wrapInt v - 1) = wrapInt (v - 1) from by unfold wrapInt; omega, h]
      simp only [List.count_cons_self, List.count_cons_of_ne (show '+' ≠ '-' by decide)]
      congr 6
      push_cast
      ring_nf

theorem tokenizerLoop_move_run (file : List Char) :
    ∀ (fuel : Nat) (v : Int), (∀ c ∈ file, c = '>' ∨ c = '<') → file.length < fuel →
      tokenizerLoop fuel file (tokenInit .MAIN_BLOCK_TOKEN)
          (Token.mk .MOVE_TOKEN (wrapInt v) none 0) =
        .ok (true, [], Token.mk .MAIN_BLOCK_TOKEN 0
          (some [Token.mk .MOVE_TOKEN
            (wrapInt (v + (file.count '>' : Int) - (file.count '<' : Int))) none 0]) 20) := by
  induction file with
  | nil =>
    intro fuel v _ hfuel
    obtain ⟨n, rfl⟩ : ∃ n, fuel = n + 1 := ⟨fuel - 1, by simp at hfuel; omega⟩
    simp [tokenizerLoop, tokenAppend, tokenInit, Token.type, Token.children, Token.value,
      Token.reservedChildren, zeroToken]
  | cons c file ih =>
    intro fuel v hc hfuel
    obtain ⟨n, rfl⟩ : ∃ n, fuel = n + 1 := ⟨fuel - 1, by simp at hfuel; omega⟩
    have hrest : ∀ c ∈ file, c = '>' ∨ c = '<' := fun c h => hc c (List.mem_cons_of_mem _ h)
    have hlen : file.length < n := by simp at hfuel; omega
    rcases hc c (List.mem_cons_self _ _) with rfl | rfl
    · have h := ih n (v + 1) hrest hlen
      simp only [tokenizerLoop, startRun, Token.type, Token.setValue, Token.value,
        Token.children, Token.reservedChildren]
      simp only [show ('>' = ']') = False by decide, show ('>' = '+') = False by decide,
        show ('>' = '-') = False by decide, if_false, if_true, ne_eq, not_true_eq_false]
      rw [wrapInt_wrapInt_add, h]
      simp only [List.count_cons_self, List.count_cons_of_ne (show '<' ≠ '>' by decide)]
      congr 6
      push_cast
      ring_nf
    · have h := ih n (v - 1) hrest hlen
      simp only [tokenizerLoop, startRun, Token.type, Token.setValue, Token.value,
        Token.children, Token.reservedChildren]
      simp only [show ('<' = ']') = False by decide, show ('<' = '+') = False by decide,
        show ('<' = '-') = False by decide, show ('<' = '>') = False by decide,
        if_false, if_true, ne_eq, not_true_eq_false]
      rw [show wrapInt (wrapInt v - 1) = wrapInt (v - 1) from by unfold wrapInt; omega, h]
      simp only [List.count_cons_self, List.count_cons_of_ne (show '>' ≠ '<' by decide)]
      congr 6
      push_cast
      ring_nf

theorem count_sub_count_range (file : List Char) (a b : Char) (hlen : file.length < 2147483648) :
    -2147483648 ≤ (file.count a : Int) - (file.count b : Int) ∧
      (file.count a : Int) - (file.count b : Int) ≤ 2147483647 := by
  have h1 : file.count a ≤ file.length := List.count_le_length a file
  have h2 : file.count b ≤ file.length := List.count_le_length b file
  omega

theorem tokenizer_cons_plus (file : List Char) :
    tokenizer ('+' :: file) (tokenInit .MAIN_BLOCK_TOKEN) =
      tokenizerLoop (file.length + 1) file (tokenInit .MAIN_BLOCK_TOKEN)
        (Token.mk .INCREMENT_TOKEN (wrapInt 1) none 0) := rfl

theorem tokenizer_cons_minus (file : List Char) :
    tokenizer ('-' :: file) (tokenInit .MAIN_BLOCK_TOKEN) =
      tokenizerLoop (file.length + 1) file (tokenInit .MAIN_BLOCK_TOKEN)
        (Token.mk .INCREMENT_TOKEN (wrapInt (-1)) none 0) := rfl

theorem tokenizer_cons_right (file : List Char) :
    tokenizer ('>' :: file) (tokenInit .MAIN_BLOCK_TOKEN) =
      tokenizerLoop (file.length + 1) file (tokenInit .MAIN_BLOCK_TOKEN)
        (Token.mk .MOVE_TOKEN (wrapInt 1) none 0) := rfl

theorem tokenizer_cons_left (file : List Char) :
    tokenizer ('<' :: file) (tokenInit .MAIN_BLOCK_TOKEN) =
      tokenizerLoop (file.length + 1) file (tokenInit .MAIN_BLOCK_TOKEN)
        (Token.mk .MOVE_TOKEN (wrapInt (-1)) none 0) := rfl

/-- C2: a source made only of `+` and `-` (at least one character, short enough
for the count to fit an `int`) parses into a fresh root as exactly one
INCREMENT token whose value is the number of `+` minus the number of `-`; a
source made only of `>` and `<` parses as exactly one MOVE token whose value is
the number of `>` minus the number of `<`. In both cases the tokenizer returns
`true` with the stream exhausted. -/
theorem tokenizer_run_collapse (file : List Char) (hne : file ≠ [])
    (hlen : file.length < 2147483648) :
    ((∀ c ∈ file, c = '+' ∨ c = '-') →
      tokenizer file (tokenInit .MAIN_BLOCK_TOKEN) =
        .ok (true, [], Token.mk .MAIN_BLOCK_TOKEN 0
          (some [Token.mk .INCREMENT_TOKEN
            ((file.count '+' : Int) - (file.count '-' : Int)) none 0]) 20)) ∧
    ((∀ c ∈ file, c = '>' ∨ c = '<') →
      tokenizer file (tokenInit .MAIN_BLOCK_TOKEN) =
        .ok (true, [], Token.mk .MAIN_BLOCK_TOKEN 0
          (some [Token.mk .MOVE_TOKEN
            ((file.count '>' : Int) - (file.count '<' : Int)) none 0]) 20)) := by
  cases file with
  | nil => exact absurd rfl hne
  | cons c file =>
    constructor
    · intro hc
      have hrest : ∀ c ∈ file, c = '+' ∨ c = '-' := fun c h => hc c (List.mem_cons_of_mem _ h)
      have hr := count_sub_count_range (c :: file) '+' '-' hlen
      rcases hc c (List.mem_cons_self _ _) with rfl | rfl
      · simp only [List.count_cons_self,
          List.count_cons_of_ne (show '-' ≠ '+' by decide)] at hr ⊢
        rw [← wrapInt_of_range _ hr.1 hr.2, tokenizer_cons_plus,
          tokenizerLoop_increment_run file (file.length + 1) 1 hrest (by omega)]
        congr 6
        push_cast
        ring_nf
      · simp only [List.count_cons_self,
          List.count_cons_of_ne (show '+' ≠ '-' by decide)] at hr ⊢
        rw [← wrapInt_of_range _ hr.1 hr.2, tokenizer_cons_minus,
          tokenizerLoop_increment_run file (file.length + 1) (-1) hrest (by omega)]
        congr 6
        push_cast
        ring_nf
    · intro hc
      have hrest : ∀ c ∈ file, c = '>' ∨ c = '<' := fun c h => hc c (List.mem_cons_of_mem _ h)
      have hr := count_sub_count_range (c :: file) '>' '<' hlen
      rcases hc c (List.mem_cons_self _ _) with rfl | rfl
      · simp only [List.count_cons_self,
          List.count_cons_of_ne (show '<' ≠ '>' by decide)] at hr ⊢
        rw [← wrapInt_of_range _ hr.1 hr.2, tokenizer_cons_right,
          tokenizerLoop_move_run file (file.length + 1) 1 hrest (by omega)]
        congr 6
        push_cast
        ring_nf
      · simp only [List.count_cons_self,
          List.count_cons_of_ne (show '>' ≠ '<' by decide)] at hr ⊢
        rw [← wrapInt_of_range _ hr.1 hr.2, tokenizer_cons_left,
          tokenizerLoop_move_run file (file.length + 1) (-1) hrest (by omega)]
        congr 6
        push_cast
        ring_nf

/-- C2 at the example of the specification: `+++` parses to a single INCREMENT
token with value 3; and `>><` parses to a single MOVE token with value 1. -/
theorem tokenizer_run_collapse_witness :
    tokenizer ['+', '+', '+'] (tokenInit .MAIN_BLOCK_TOKEN) =
        .ok (true, [], Token.mk .MAIN_BLOCK_TOKEN 0
          (some [Token.mk .INCREMENT_TOKEN 3 none 0]) 20) ∧
      tokenizer ['>', '>', '<'] (tokenInit .MAIN_BLOCK_TOKEN) =
        .ok (true, [], Token.mk .MAIN_BLOCK_TOKEN 0
          (some [Token.mk .MOVE_TOKEN 1 none 0]) 20) :=
  ⟨(tokenizer_run_collapse ['+', '+', '+'] (by decide) (by decide)).1 (by decide),
    (tokenizer_run_collapse ['>', '>', '<'] (by decide) (by decide)).2 (by decide)⟩

/-! ## One turn of the tokenizer loop -/

theorem tokenizerLoop_nil (n : Nat) (parent current : Token) :
    tokenizerLoop (n + 1) [] parent current =
      match tokenAppend parent current with
      | .ok (p, _) => .ok (true, [], p)
      | .exit1 e => .exit1 e
      | .undefined => .undefined
      | .outOfFuel => .outOfFuel := rfl

theorem tokenizerLoop_close (n : Nat) (file : List Char) (parent current : Token) :
    tokenizerLoop (n + 1) (']' :: file) parent current =
      match tokenAppend parent current with
      | .ok (p, _) => .ok (false, file, p)
      | .exit1 e => .exit1 e
      | .undefined => .undefined
      | .outOfFuel => .outOfFuel := rfl

theorem tokenizerLoop_open (n : Nat) (file : List Char) (parent current : Token) :
    tokenizerLoop (n + 1) ('[' :: file) parent current =
      match flushInit parent current .LOOP_TOKEN with
      | .ok (p, cur) =>
        match tokenizerLoop n file cur (tokenInit .NOOP_TOKEN) with
        | .ok (true, _, _) => .exit1 .unterminatedLoop
        | .ok (false, file', cur') => tokenizerLoop n file' p cur'
        | .exit1 e => .exit1 e
        | .undefined => .undefined
        | .outOfFuel => .outOfFuel
      | .exit1 e => .exit1 e
      | .undefined => .undefined
      | .outOfFuel => .outOfFuel := rfl

theorem tokenizerLoop_switch (n : Nat) (c : Char) (file : List Char) (parent current : Token)
    (h1 : c ≠ ']') (h2 : c ≠ '[') :
    tokenizerLoop (n + 1) (c :: file) parent current =
      match switchStep c parent current with
      | .ok (p, cur) => tokenizerLoop n file p cur
      | .exit1 e => .exit1 e
      | .undefined => .undefined
      | .outOfFuel => .outOfFuel := by
  unfold switchStep
  rw [tokenizerLoop]
  simp only [h1, h2, if_false]
  split_ifs <;> first | rfl | (split <;> rfl)

/-! ## The tokenizer consumes its stream -/

theorem tokenizerLoop_rest_length :
    ∀ (fuel : Nat) (file : List Char) (parent current : Token) (b : Bool) (rest : List Char)
      (p : Token), tokenizerLoop fuel file parent current = .ok (b, rest, p) →
      rest.length ≤ file.length ∧ (b = false → rest.length < file.length) := by
  intro fuel
  induction fuel with
  | zero => intro file parent current b rest p h; simp [tokenizerLoop] at h
  | succ n ih =>
    intro file parent current b rest p h
    cases file with
    | nil =>
      rw [tokenizerLoop_nil] at h
      cases ha : tokenAppend parent current with
      | ok a =>
        rw [ha] at h
        simp only [Outcome.ok.injEq, Prod.mk.injEq] at h
        obtain ⟨rfl, rfl, _⟩ := h
        simp
      | exit1 e => rw [ha] at h; cases h
      | undefined => rw [ha] at h; cases h
      | outOfFuel => rw [ha] at h; cases h
    | cons c file =>
      by_cases h1 : c = ']'
      · subst h1
        rw [tokenizerLoop_close] at h
        cases ha : tokenAppend parent current with
        | ok a =>
          rw [ha] at h
          simp only [Outcome.ok.injEq, Prod.mk.injEq] at h
          obtain ⟨rfl, rfl, _⟩ := h
          simp
        | exit1 e => rw [ha] at h; cases h
        | undefined => rw [ha] at h; cases h
        | outOfFuel => rw [ha] at h; cases h
      · by_cases h2 : c = '['
        · subst h2
          rw [tokenizerLoop_open] at h
          cases hf : flushInit parent current .LOOP_TOKEN with
          | ok a =>
            obtain ⟨p1, cur1⟩ := a
            rw [hf] at h
            dsimp only at h
            cases hin : tokenizerLoop n file cur1 (tokenInit .NOOP_TOKEN) with
            | ok r =>
              obtain ⟨b2, file2, cur2⟩ := r
              rw [hin] at h
              cases b2 with
              | true => cases h
              | false =>
                have h3 := ih file cur1 _ _ _ _ hin
                have h4 := ih file2 p1 cur2 b rest p h
                have h5 := h3.2 rfl
                simp only [List.length_cons]
                constructor
                · omega
                · intro hb; have := h4.2 hb; omega
            | exit1 e => rw [hin] at h; cases h
            | undefined => rw [hin] at h; cases h
            | outOfFuel => rw [hin] at h; cases h
          | exit1 e => rw [hf] at h; cases h
          | undefined => rw [hf] at h; cases h
          | outOfFuel => rw [hf] at h; cases h
        · rw [tokenizerLoop_switch n c file parent current h1 h2] at h
          cases hs : switchStep c parent current with
          | ok a =>
            obtain ⟨p1, cur1⟩ := a
            rw [hs] at h
            have h4 := ih file p1 cur1 b rest p h
            simp only [List.length_cons]
            constructor
            · omega
            · intro hb; have := h4.2 hb; omega
          | exit1 e => rw [hs] at h; cases h
          | undefined => rw [hs] at h; cases h
          | outOfFuel => rw [hs] at h; cases h

/-- With more fuel than characters the result does not depend on the fuel. -/
theorem tokenizerLoop_fuel :
    ∀ (fuel fuel' : Nat) (file : List Char) (parent current : Token),
      file.length < fuel → file.length < fuel' →
      tokenizerLoop fuel file parent current = tokenizerLoop fuel' file parent current := by
  intro fuel
  induction fuel with
  | zero => intro fuel' file parent current h; omega
  | succ n ih =>
    intro fuel' file parent current hf hf'
    obtain ⟨m, rfl⟩ : ∃ m, fuel' = m + 1 := ⟨fuel' - 1, by omega⟩
    cases file with
    | nil => rfl
    | cons c file =>
      simp only [List.length_cons] at hf hf'
      by_cases h1 : c = ']'
      · subst h1; rfl
      · by_cases h2 : c = '['
        · subst h2
          rw [tokenizerLoop_open, tokenizerLoop_open]
          cases hfl : flushInit parent current .LOOP_TOKEN with
          | ok a =>
            obtain ⟨p1, cur1⟩ := a
            simp only []
            rw [← ih m file cur1 (tokenInit .NOOP_TOKEN) (by omega) (by omega)]
            cases hin : tokenizerLoop n file cur1 (tokenInit .NOOP_TOKEN) with
            | ok r =>
              obtain ⟨b2, file2, cur2⟩ := r
              cases b2 with
              | true => rfl
              | false =>
                have h3 := (tokenizerLoop_rest_length _ _ _ _ _ _ _ hin).1
                exact ih m file2 p1 cur2 (by omega) (by omega)
            | exit1 e => rfl
            | undefined => rfl
            | outOfFuel => rfl
          | exit1 e => rfl
          | undefined => rfl
          | outOfFuel => rfl
        · rw [tokenizerLoop_switch n c file parent current h1 h2,
            tokenizerLoop_switch m c file parent current h1 h2]
          cases hs : switchStep c parent current with
          | ok a =>
            obtain ⟨p1, cur1⟩ := a
            exact ih m file p1 cur1 (by omega) (by omega)
          | exit1 e => rfl
          | undefined => rfl
          | outOfFuel => rfl


/-! ## Appending to a container never fails -/

theorem tokenAppend_isParent (parent child : Token) (h : parent.isParent) :
    ∃ p c, tokenAppend parent child = .ok (p, c) ∧ p.isParent := by
  obtain ⟨t, v, cs, r⟩ := parent
  have ht := h.1
  have hc := h.2
  cases cs with
  | none => exact absurd rfl hc
  | some cs =>
    unfold tokenAppend
    by_cases hn : child.type = .NOOP_TOKEN
    · exact ⟨_, _, by rw [if_pos hn], h⟩
    · rw [if_neg hn]
      have hcont : ¬ ((Token.mk t v (some cs) r).type ≠ .MAIN_BLOCK_TOKEN ∧
          (Token.mk t v (some cs) r).type ≠ .LOOP_TOKEN) := by
        rcases ht with h | h <;> simp [h]
      rw [if_neg hcont]
      exact ⟨_, _, rfl, ⟨ht, by simp [Token.children]⟩⟩

theorem flushInit_isParent (parent current : Token) (t : TokenType) (h : parent.isParent) :
    ∃ p, flushInit parent current t = .ok (p, tokenInit t) ∧ p.isParent := by
  obtain ⟨p, c, hp, hpar⟩ := tokenAppend_isParent parent current h
  exact ⟨p, by unfold flushInit; rw [hp], hpar⟩

theorem startRun_isParent (parent current : Token) (t : TokenType) (h : parent.isParent) :
    ∃ p c, startRun parent current t = .ok (p, c) ∧ p.isParent := by
  unfold startRun
  by_cases ht : current.type ≠ t
  · rw [if_pos ht]
    obtain ⟨p, hp, hpar⟩ := flushInit_isParent parent current t h
    exact ⟨p, _, hp, hpar⟩
  · rw [if_neg ht]
    exact ⟨_, _, rfl, h⟩

theorem switchStep_isParent (c : Char) (parent current : Token) (h : parent.isParent) :
    ∃ p cur, switchStep c parent current = .ok (p, cur) ∧ p.isParent := by
  unfold switchStep
  split_ifs
  · obtain ⟨p, cur, hp, hpar⟩ := startRun_isParent parent current .INCREMENT_TOKEN h
    rw [hp]; exact ⟨_, _, rfl, hpar⟩
  · obtain ⟨p, cur, hp, hpar⟩ := startRun_isParent parent current .INCREMENT_TOKEN h
    rw [hp]; exact ⟨_, _, rfl, hpar⟩
  · obtain ⟨p, cur, hp, hpar⟩ := startRun_isParent parent current .MOVE_TOKEN h
    rw [hp]; exact ⟨_, _, rfl, hpar⟩
  · obtain ⟨p, cur, hp, hpar⟩ := startRun_isParent parent current .MOVE_TOKEN h
    rw [hp]; exact ⟨_, _, rfl, hpar⟩
  · obtain ⟨p, hp, hpar⟩ := flushInit_isParent parent current .INPUT_TOKEN h
    exact ⟨_, _, hp, hpar⟩
  · obtain ⟨p, hp, hpar⟩ := flushInit_isParent parent current .OUTPUT_TOKEN h
    exact ⟨_, _, hp, hpar⟩
  · exact ⟨_, _, rfl, h⟩

theorem tokenInit_main_isParent : (tokenInit .MAIN_BLOCK_TOKEN).isParent :=
  ⟨Or.inl rfl, by simp [tokenInit, Token.children]⟩

theorem tokenInit_loop_isParent : (tokenInit .LOOP_TOKEN).isParent :=
  ⟨Or.inr rfl, by simp [tokenInit, Token.children]⟩

/-! ## The bracket scan -/

theorem scan_cons_close_zero (s : List Char) : scan 0 (']' :: s) = .closed s := by
  simp [scan]

theorem scan_cons_close_succ (d : Nat) (s : List Char) : scan (d + 1) (']' :: s) = scan d s := by
  simp [scan]

theorem scan_cons_open (d : Nat) (s : List Char) : scan d ('[' :: s) = scan (d + 1) s := by
  simp [scan]

theorem scan_cons_other (d : Nat) (c : Char) (s : List Char) (h1 : c ≠ ']') (h2 : c ≠ '[') :
    scan d (c :: s) = scan d s := by
  simp [scan, h1, h2]

theorem scan_succ (s : List Char) :
    ∀ k : Nat, scan (k + 1) s =
      match scan k s with
      | .eof => .unterminated
      | .closed rest => scan 0 rest
      | .unterminated => .unterminated := by
  induction s with
  | nil =>
    intro k
    cases k <;> simp [scan]
  | cons c s ih =>
    intro k
    by_cases h1 : c = ']'
    · subst h1
      rw [scan_cons_close_succ]
      cases k with
      | zero => rw [scan_cons_close_zero]
      | succ k => rw [scan_cons_close_succ, ih k]
    · by_cases h2 : c = '['
      · subst h2
        rw [scan_cons_open, scan_cons_open, ih (k + 1)]
      · rw [scan_cons_other _ _ _ h1 h2, scan_cons_other _ _ _ h1 h2, ih k]

theorem scan_closed_length (s : List Char) :
    ∀ (d : Nat) (rest : List Char), scan d s = .closed rest → rest.length < s.length := by
  induction s with
  | nil => intro d rest h; cases d <;> simp [scan] at h
  | cons c s ih =>
    intro d rest h
    simp only [List.length_cons]
    by_cases h1 : c = ']'
    · subst h1
      cases d with
      | zero =>
        rw [scan_cons_close_zero] at h
        cases h
        omega
      | succ d =>
        rw [scan_cons_close_succ] at h
        have := ih d rest h
        omega
    · by_cases h2 : c = '['
      · subst h2
        rw [scan_cons_open] at h
        have := ih _ rest h
        omega
      · rw [scan_cons_other _ _ _ h1 h2] at h
        have := ih _ rest h
        omega

/-- The tokenizer ends as the bracket scan says: on a container parent, with
more fuel than characters, it returns `true` with the stream exhausted when the
scan ends at depth 0, returns `false` with the stream after the closing `]`
when the scan meets one, and exits with the unterminated-loop diagnostic when
the scan ends inside a loop. -/
theorem tokenizerLoop_scan :
    ∀ (fuel : Nat) (file : List Char) (parent current : Token),
      parent.isParent → file.length < fuel →
      match scan 0 file with
      | .eof => ∃ p, tokenizerLoop fuel file parent current = .ok (true, [], p) ∧ p.isParent
      | .closed rest =>
        ∃ p, tokenizerLoop fuel file parent current = .ok (false, rest, p) ∧ p.isParent
      | .unterminated =>
        tokenizerLoop fuel file parent current = .exit1 .unterminatedLoop := by
  intro fuel
  induction fuel with
  | zero => intro file parent current _ h; omega
  | succ n ih =>
    intro file parent current hpar hfuel
    cases file with
    | nil =>
      obtain ⟨p, c, hp, hpp⟩ := tokenAppend_isParent parent current hpar
      simp only [scan, if_true]
      exact ⟨p, by rw [tokenizerLoop_nil, hp], hpp⟩
    | cons c file =>
      simp only [List.length_cons] at hfuel
      by_cases h1 : c = ']'
      · subst h1
        obtain ⟨p, c, hp, hpp⟩ := tokenAppend_isParent parent current hpar
        rw [scan_cons_close_zero]
        exact ⟨p, by rw [tokenizerLoop_close, hp], hpp⟩
      · by_cases h2 : c = '['
        · subst h2
          obtain ⟨p, hp, hpp⟩ := flushInit_isParent parent current .LOOP_TOKEN hpar
          rw [scan_cons_open, scan_succ, tokenizerLoop_open, hp]
          dsimp only
          have hin := ih file (tokenInit .LOOP_TOKEN) (tokenInit .NOOP_TOKEN)
            tokenInit_loop_isParent (by omega)
          cases hs : scan 0 file with
          | eof =>
            rw [hs] at hin
            obtain ⟨q, hq, _⟩ := hin
            rw [hq]
          | closed rest =>
            rw [hs] at hin
            obtain ⟨q, hq, _⟩ := hin
            rw [hq]
            have hlen := scan_closed_length _ _ _ hs
            exact ih rest p q hpp (by omega)
          | unterminated =>
            rw [hs] at hin
            dsimp only at hin ⊢
            rw [hin]
        · obtain ⟨p, cur, hp, hpp⟩ := switchStep_isParent c parent current hpar
          rw [scan_cons_other _ _ _ h1 h2, tokenizerLoop_switch n c file parent current h1 h2, hp]
          exact ih file p cur hpp (by omega)

/-! ## Streams without a stray `]` -/

theorem NoStrayClose.head_close {d : Nat} {s : List Char} (h : NoStrayClose d (']' :: s)) :
    0 < d := by
  have h1 := h 1 (by simp)
  simp at h1
  omega

theorem NoStrayClose.tail_close {d : Nat} {s : List Char} (h : NoStrayClose d (']' :: s)) :
    NoStrayClose (d - 1) s := by
  have hd := h.head_close
  intro n hn
  have h1 := h (n + 1) (by simp; omega)
  simp only [List.take_succ_cons, List.count_cons_self,
    List.count_cons_of_ne (show '[' ≠ ']' by decide)] at h1
  omega

theorem NoStrayClose.tail_open {d : Nat} {s : List Char} (h : NoStrayClose d ('[' :: s)) :
    NoStrayClose (d + 1) s := by
  intro n hn
  have h1 := h (n + 1) (by simp; omega)
  simp only [List.take_succ_cons, List.count_cons_self,
    List.count_cons_of_ne (show ']' ≠ '[' by decide)] at h1
  omega

theorem NoStrayClose.tail_other {d : Nat} {c : Char} {s : List Char}
    (h : NoStrayClose d (c :: s)) (h1 : c ≠ ']') (h2 : c ≠ '[') : NoStrayClose d s := by
  intro n hn
  have h3 := h (n + 1) (by simp; omega)
  simp only [List.take_succ_cons, List.count_cons_of_ne (Ne.symm h1),
    List.count_cons_of_ne (Ne.symm h2)] at h3
  exact h3

theorem NoStrayClose.count_le {d : Nat} {s : List Char} (h : NoStrayClose d s) :
    s.count ']' ≤ d + s.count '[' := by
  have h1 := h s.length (le_refl _)
  rwa [List.take_length] at h1

/-- A prefix without a stray `]` only moves the depth of the scan. -/
theorem scan_append_of_noStrayClose (p r : List Char) :
    ∀ d : Nat, NoStrayClose d p →
      scan d (p ++ r) = scan (d + p.count '[' - p.count ']') r := by
  induction p with
  | nil => intro d _; simp
  | cons c p ih =>
    intro d h
    by_cases h1 : c = ']'
    · subst h1
      have hd := h.head_close
      have ht := h.tail_close
      have hc := ht.count_le
      obtain ⟨e, rfl⟩ : ∃ e, d = e + 1 := ⟨d - 1, by omega⟩
      rw [List.cons_append, scan_cons_close_succ, ih e ht]
      simp only [List.count_cons_self, List.count_cons_of_ne (show '[' ≠ ']' by decide)]
      congr 1
      simp only [Nat.add_sub_cancel] at hc
      omega
    · by_cases h2 : c = '['
      · subst h2
        have ht := h.tail_open
        rw [List.cons_append, scan_cons_open, ih (d + 1) ht]
        simp only [List.count_cons_self, List.count_cons_of_ne (show ']' ≠ '[' by decide)]
        congr 1
        omega
      · have ht := h.tail_other h1 h2
        rw [List.cons_append, scan_cons_other _ _ _ h1 h2, ih d ht]
        simp only [List.count_cons_of_ne (Ne.symm h1), List.count_cons_of_ne (Ne.symm h2)]

theorem scan_of_noStrayClose (s : List Char) (d : Nat) (h : NoStrayClose d s) :
    scan d s = if d + s.count '[' = s.count ']' then .eof else .unterminated := by
  have h1 := scan_append_of_noStrayClose s [] d h
  have hc := h.count_le
  rw [List.append_nil] at h1
  rw [h1]
  simp only [scan]
  by_cases he : d + s.count '[' = s.count ']'
  · rw [if_pos he, if_pos (by omega)]
  · rw [if_neg he, if_neg (by omega)]

/-- C3: on a source with balanced brackets the top-level call of the tokenizer
(fresh root as parent) returns the status `true` with the whole stream
consumed; in particular it does not exit with the unterminated-loop error. -/
theorem tokenizer_balanced (file : List Char) (h : Balanced file) :
    ∃ tree, tokenizer file (tokenInit .MAIN_BLOCK_TOKEN) = .ok (true, [], tree) := by
  have hs : scan 0 file = .eof := by
    rw [scan_of_noStrayClose file 0 h.1, if_pos (by have := h.2; omega)]
  have h1 := tokenizerLoop_scan (file.length + 1) file (tokenInit .MAIN_BLOCK_TOKEN)
    (tokenInit .NOOP_TOKEN) tokenInit_main_isParent (by omega)
  rw [hs] at h1
  obtain ⟨p, hp, _⟩ := h1
  exact ⟨p, hp⟩

/-- C3 on the balanced source `+[->+<].`. -/
theorem tokenizer_balanced_witness :
    Balanced ['+', '[', '-', '>', '+', '<', ']', '.'] ∧
      ∃ tree, tokenizer ['+', '[', '-', '>', '+', '<', ']', '.']
        (tokenInit .MAIN_BLOCK_TOKEN) = .ok (true, [], tree) :=
  ⟨by decide, tokenizer_balanced _ (by decide)⟩

/-! ## Unterminated loops -/

theorem main_of_tokenizer_exit (fuel : Nat) (file : List Char) (stdin : List Nat) (e : Fatal)
    (h : tokenizer file (tokenInit .MAIN_BLOCK_TOKEN) = .exit1 e) :
    main fuel file stdin = .ok { status := 1, stdout := [], diagnostic := some e } := by
  unfold main
  rw [h]

theorem count_lt_of_hasUnmatchedOpen (file : List Char) (h1 : HasUnmatchedOpen file)
    (h2 : NoStrayClose 0 file) : file.count ']' < file.count '[' := by
  obtain ⟨i, hi, hget, hdrop⟩ := h1
  have hdecomp : file = file.take i ++ '[' :: file.drop (i + 1) := by
    have h3 : file[i] = '[' := by
      rw [List.getElem?_eq_getElem hi] at hget
      exact Option.some.inj hget
    rw [← h3, ← List.drop_eq_getElem_cons hi, List.take_append_drop]
  have htake : (file.take i).count ']' ≤ (file.take i).count '[' := by
    have := h2 i (by omega)
    omega
  have hd := hdrop.count_le
  rw [hdecomp]
  simp only [List.count_append, List.count_cons_self,
    List.count_cons_of_ne (show ']' ≠ '[' by decide)]
  omega

/-- C4 (amended): when the source has an unmatched `[` and no `]` that lacks an
earlier `[` to close, the tokenizer exits with the unterminated-loop error; the
process ends with status 1, nothing written to `stdout`, whatever the fuel
given to `execute` (which is not reached) and whatever `stdin` holds. -/
theorem main_unterminated_loop (file : List Char) (fuel : Nat) (stdin : List Nat)
    (h1 : HasUnmatchedOpen file) (h2 : NoStrayClose 0 file) :
    tokenizer file (tokenInit .MAIN_BLOCK_TOKEN) = .exit1 .unterminatedLoop ∧
      main fuel file stdin =
        .ok { status := 1, stdout := [], diagnostic := some .unterminatedLoop } := by
  have hc := count_lt_of_hasUnmatchedOpen file h1 h2
  have hs : scan 0 file = .unterminated := by
    rw [scan_of_noStrayClose file 0 h2, if_neg (by omega)]
  have ht := tokenizerLoop_scan (file.length + 1) file (tokenInit .MAIN_BLOCK_TOKEN)
    (tokenInit .NOOP_TOKEN) tokenInit_main_isParent (by omega)
  rw [hs] at ht
  exact ⟨ht, main_of_tokenizer_exit fuel file stdin _ ht⟩

/-- C4 (amended) on the source `[` of the specification, with no fuel at all
for `execute`. -/
theorem main_unterminated_loop_witness :
    main 0 ['['] [] =
      .ok { status := 1, stdout := [], diagnostic := some .unterminatedLoop } :=
  (main_unterminated_loop ['['] 0 [] (by decide) (by decide)).2

/-- C4 as stated fails: in `][` the `[` is unmatched, yet the top-level `]`
ends the parse first, the unterminated-loop exit is not taken and `execute`
runs on the empty root, the process ending with status 0. -/
theorem main_unmatched_open_counterexample :
    HasUnmatchedOpen [']', '['] ∧
      tokenizer [']', '['] (tokenInit .MAIN_BLOCK_TOKEN) =
        .ok (false, ['['], tokenInit .MAIN_BLOCK_TOKEN) ∧
      tokenizer [']', '['] (tokenInit .MAIN_BLOCK_TOKEN) ≠ .exit1 .unterminatedLoop ∧
      main 1 [']', '['] [] = .ok { status := 0, stdout := [], diagnostic := none } :=
  ⟨by decide, rfl, fun h => Outcome.noConfusion h, rfl⟩

/-! ## Comment characters -/

theorem switchStep_comment (c : Char) (parent current : Token) (h : isCommand c = false) :
    switchStep c parent current = .ok (parent, current) := by
  simp only [isCommand, Bool.or_eq_false_iff, decide_eq_false_iff_not] at h
  obtain ⟨⟨⟨⟨⟨⟨⟨h1, h2⟩, h3⟩, h4⟩, h5⟩, h6⟩, _⟩, _⟩ := h
  unfold switchStep
  rw [if_neg h1, if_neg h2, if_neg h3, if_neg h4, if_neg h5, if_neg h6]

theorem tokenizerLoop_filter :
    ∀ (fuel fuel' : Nat) (file : List Char) (parent current : Token),
      file.length < fuel → (file.filter isCommand).length < fuel' →
      stripRest (tokenizerLoop fuel file parent current) =
        tokenizerLoop fuel' (file.filter isCommand) parent current := by
  intro fuel
  induction fuel with
  | zero => intro fuel' file parent current h; omega
  | succ n ih =>
    intro fuel' file parent current hf hf'
    cases file with
    | nil =>
      obtain ⟨m, rfl⟩ : ∃ m, fuel' = m + 1 := ⟨fuel' - 1, by omega⟩
      rw [List.filter_nil, tokenizerLoop_nil, tokenizerLoop_nil]
      cases tokenAppend parent current <;> rfl
    | cons c file =>
      simp only [List.length_cons] at hf
      by_cases hcmd : isCommand c = true
      · rw [List.filter_cons_of_pos hcmd] at hf' ⊢
        simp only [List.length_cons] at hf'
        obtain ⟨m, rfl⟩ : ∃ m, fuel' = m + 1 := ⟨fuel' - 1, by omega⟩
        by_cases h1 : c = ']'
        · subst h1
          rw [tokenizerLoop_close, tokenizerLoop_close]
          cases tokenAppend parent current <;> rfl
        · by_cases h2 : c = '['
          · subst h2
            rw [tokenizerLoop_open, tokenizerLoop_open]
            cases hfl : flushInit parent current .LOOP_TOKEN with
            | ok a =>
              obtain ⟨p1, cur1⟩ := a
              dsimp only
              have hin := ih m file cur1 (tokenInit .NOOP_TOKEN) (by omega) (by omega)
              cases hl : tokenizerLoop n file cur1 (tokenInit .NOOP_TOKEN) with
              | ok r =>
                obtain ⟨b2, file2, cur2⟩ := r
                rw [hl] at hin
                simp only [stripRest] at hin
                rw [← hin]
                cases b2 with
                | true => rfl
                | false =>
                  dsimp only
                  have h3 := (tokenizerLoop_rest_length _ _ _ _ _ _ _ hl).2 rfl
                  have h4 := (tokenizerLoop_rest_length _ _ _ _ _ _ _ hin.symm).2 rfl
                  exact ih m file2 p1 cur2 (by omega) (by omega)
              | exit1 e => rw [hl] at hin; rw [← hin]; rfl
              | undefined => rw [hl] at hin; rw [← hin]; rfl
              | outOfFuel => rw [hl] at hin; rw [← hin]; rfl
            | exit1 e => rfl
            | undefined => rfl
            | outOfFuel => rfl
          · rw [tokenizerLoop_switch n c file parent current h1 h2,
              tokenizerLoop_switch m c _ parent current h1 h2]
            cases hs : switchStep c parent current with
            | ok a =>
              obtain ⟨p1, cur1⟩ := a
              exact ih m file p1 cur1 (by omega) (by omega)
            | exit1 e => rfl
            | undefined => rfl
            | outOfFuel => rfl
      · have hcmd' : isCommand c = false := by simpa using hcmd
        have h1 : c ≠ ']' := by rintro rfl; exact hcmd rfl
        have h2 : c ≠ '[' := by rintro rfl; exact hcmd rfl
        rw [List.filter_cons_of_neg hcmd] at hf' ⊢
        rw [tokenizerLoop_switch n c file parent current h1 h2,
          switchStep_comment c parent current hcmd']
        exact ih fuel' file parent current (by omega) hf'

/-! ## The tokenizer always comes to a result -/

theorem tokenAppend_isResult (parent child : Token) : (tokenAppend parent child).isResult := by
  unfold tokenAppend
  split_ifs
  · trivial
  · trivial
  · cases parent.children <;> trivial

theorem flushInit_isResult (parent current : Token) (t : TokenType) :
    (flushInit parent current t).isResult := by
  have h := tokenAppend_isResult parent current
  unfold flushInit
  cases ha : tokenAppend parent current with
  | ok a => trivial
  | exit1 e => trivial
  | undefined => rw [ha] at h; exact h
  | outOfFuel => rw [ha] at h; exact h

theorem startRun_isResult (parent current : Token) (t : TokenType) :
    (startRun parent current t).isResult := by
  unfold startRun
  split_ifs
  · exact flushInit_isResult parent current t
  · trivial

theorem bump_isResult (o : Outcome (Token × Token)) (f : Token → Token) (h : o.isResult) :
    (match o with
      | .ok (p, cur) => Outcome.ok (p, f cur)
      | .exit1 e => .exit1 e
      | .undefined => .undefined
      | .outOfFuel => .outOfFuel).isResult := by
  cases o with
  | ok a => trivial
  | exit1 e => trivial
  | undefined => exact h
  | outOfFuel => exact h

theorem switchStep_isResult (c : Char) (parent current : Token) :
    (switchStep c parent current).isResult := by
  unfold switchStep
  split_ifs
  · exact bump_isResult _ _ (startRun_isResult parent current _)
  · exact bump_isResult _ _ (startRun_isResult parent current _)
  · exact bump_isResult _ _ (startRun_isResult parent current _)
  · exact bump_isResult _ _ (startRun_isResult parent current _)
  · exact flushInit_isResult parent current _
  · exact flushInit_isResult parent current _
  · trivial

/-- With more fuel than characters the tokenizer returns or exits: the fuel is
never the reason it stops. -/
theorem tokenizerLoop_isResult :
    ∀ (fuel : Nat) (file : List Char) (parent current : Token),
      file.length < fuel → (tokenizerLoop fuel file parent current).isResult := by
  intro fuel
  induction fuel with
  | zero => intro file parent current h; omega
  | succ n ih =>
    intro file parent current hf
    cases file with
    | nil =>
      have h := tokenAppend_isResult parent current
      rw [tokenizerLoop_nil]
      cases ha : tokenAppend parent current with
      | ok a => trivial
      | exit1 e => trivial
      | undefined => rw [ha] at h; exact h
      | outOfFuel => rw [ha] at h; exact h
    | cons c file =>
      simp only [List.length_cons] at hf
      by_cases h1 : c = ']'
      · subst h1
        have h := tokenAppend_isResult parent current
        rw [tokenizerLoop_close]
        cases ha : tokenAppend parent current with
        | ok a => trivial
        | exit1 e => trivial
        | undefined => rw [ha] at h; exact h
        | outOfFuel => rw [ha] at h; exact h
      · by_cases h2 : c = '['
        · subst h2
          have h := flushInit_isResult parent current .LOOP_TOKEN
          rw [tokenizerLoop_open]
          cases hfl : flushInit parent current .LOOP_TOKEN with
          | ok a =>
            obtain ⟨p1, cur1⟩ := a
            dsimp only
            have hin := ih file cur1 (tokenInit .NOOP_TOKEN) (by omega)
            cases hl : tokenizerLoop n file cur1 (tokenInit .NOOP_TOKEN) with
            | ok r =>
              obtain ⟨b2, file2, cur2⟩ := r
              cases b2 with
              | true => trivial
              | false =>
                have h3 := (tokenizerLoop_rest_length _ _ _ _ _ _ _ hl).1
                exact ih file2 p1 cur2 (by omega)
            | exit1 e => trivial
            | undefined => rw [hl] at hin; exact hin
            | outOfFuel => rw [hl] at hin; exact hin
          | exit1 e => trivial
          | undefined => rw [hfl] at h; exact h
          | outOfFuel => rw [hfl] at h; exact h
        · have h := switchStep_isResult c parent current
          rw [tokenizerLoop_switch n c file parent current h1 h2]
          cases hs : switchStep c parent current with
          | ok a =>
            obtain ⟨p1, cur1⟩ := a
            exact ih file p1 cur1 (by omega)
          | exit1 e => trivial
          | undefined => rw [hs] at h; exact h
          | outOfFuel => rw [hs] at h; exact h

theorem tokenizer_isResult (file : List Char) (parentToken : Token) :
    (tokenizer file parentToken).isResult :=
  tokenizerLoop_isResult _ file parentToken _ (by omega)

theorem parseOutcome_isResult (file : List Char) (parentToken : Token) :
    (parseOutcome file parentToken).isResult := by
  have h := tokenizer_isResult file parentToken
  unfold parseOutcome
  cases ht : tokenizer file parentToken with
  | ok r => obtain ⟨b, rest, p⟩ := r; trivial
  | exit1 e => trivial
  | undefined => rw [ht] at h; exact h
  | outOfFuel => rw [ht] at h; exact h

/-- C5: for every source and every parent, the parse outcome (status and tree,
or the fatal exit) is the same as that of the source with every character other
than the eight command symbols deleted; and the parse does come to an outcome
(it returns or exits). -/
theorem parseOutcome_filter_isCommand (file : List Char) (parentToken : Token) :
    parseOutcome file parentToken = parseOutcome (file.filter isCommand) parentToken ∧
      (parseOutcome file parentToken).isResult := by
  refine ⟨?_, parseOutcome_isResult file parentToken⟩
  have h := tokenizerLoop_filter (file.length + 1) ((file.filter isCommand).length + 1) file
    parentToken (tokenInit .NOOP_TOKEN) (by omega) (by omega)
  unfold parseOutcome tokenizer
  rw [← h]
  cases tokenizerLoop (file.length + 1) file parentToken (tokenInit .NOOP_TOKEN) with
  | ok r => obtain ⟨b, rest, p⟩ := r; rfl
  | exit1 e => rfl
  | undefined => rfl
  | outOfFuel => rfl

/-! ## Loops -/

theorem execute_loop_eq (fuel : Nat) (token : Token) (w : World)
    (htype : token.type = .LOOP_TOKEN) :
    execute (fuel + 1) token w =
      match dataGet w.data with
      | .ok x =>
        if x ≠ 0 then
          match forChildren (execute fuel) token.childList w with
          | .ok w' => execute fuel token w'
          | .exit1 e => .exit1 e
          | .undefined => .undefined
          | .outOfFuel => .outOfFuel
        else .ok w
      | .exit1 e => .exit1 e
      | .undefined => .undefined
      | .outOfFuel => .outOfFuel := by
  rw [execute, htype]

theorem execute_increment_eq (fuel : Nat) (token : Token) (w : World)
    (htype : token.type = .INCREMENT_TOKEN) :
    execute (fuel + 1) token w =
      match dataIncrement w.data token.value with
      | .ok d => .ok { w with data := d }
      | .exit1 e => .exit1 e
      | .undefined => .undefined
      | .outOfFuel => .outOfFuel := by
  rw [execute, htype]

theorem list_set_of_getElem? {α : Type} (l : List α) (i : Nat) (a : α) (h : l[i]? = some a) :
    l.set i a = l := by
  apply List.ext_getElem?
  intro j
  by_cases hij : i = j
  · subst hij
    have hlt : i < l.length := by
      by_contra hge
      rw [List.getElem?_eq_none (by omega)] at h
      cases h
    rw [List.getElem?_set_self hlt, h]
  · rw [List.getElem?_set_ne hij]

theorem execute_loop_of_zero (fuel : Nat) (token : Token) (w : World)
    (htype : token.type = .LOOP_TOKEN) (hcell : dataGet w.data = .ok 0) :
    execute (fuel + 1) token w = .ok w := by
  rw [execute_loop_eq fuel token w htype, hcell]
  rfl

theorem loopIterations_of_zero (fuel : Nat) (token : Token) (w : World)
    (hcell : dataGet w.data = .ok 0) :
    loopIterations (fuel + 1) token w = .ok 0 := by
  rw [loopIterations, hcell]
  rfl

/-- C6: executing a LOOP token (whatever its children) on a tape whose current
cell holds 0 runs the body zero times and returns the world as it was: tape,
`stdin` and `stdout` are unchanged. One unit of fuel is enough. -/
theorem execute_loop_zero (fuel : Nat) (token : Token) (w : World)
    (htype : token.type = .LOOP_TOKEN) (hcell : dataGet w.data = .ok 0) :
    execute (fuel + 1) token w = .ok w ∧ loopIterations (fuel + 1) token w = .ok 0 :=
  ⟨execute_loop_of_zero fuel token w htype hcell, loopIterations_of_zero fuel token w hcell⟩

/-- C6 on the initial tape for the loop `[+.]`. -/
theorem execute_loop_zero_witness :
    execute 1 (Token.mk .LOOP_TOKEN 0
        (some [Token.mk .INCREMENT_TOKEN 1 none 0, Token.mk .OUTPUT_TOKEN 0 none 0]) 20)
        { data := dataInit, stdin := [7], stdout := [] } =
      .ok { data := dataInit, stdin := [7], stdout := [] } :=
  (execute_loop_zero 0
    (Token.mk .LOOP_TOKEN 0
      (some [Token.mk .INCREMENT_TOKEN 1 none 0, Token.mk .OUTPUT_TOKEN 0 none 0]) 20)
    { data := dataInit, stdin := [7], stdout := [] } rfl dataGet_dataInit).1

theorem execute_clear_loop_aux (N : Nat) :
    ∀ (fuel : Nat) (token child : Token) (w : World),
      token.type = .LOOP_TOKEN → token.children = some [child] →
      child.type = .INCREMENT_TOKEN → child.value = -1 →
      dataGet w.data = .ok N → N < 256 → N + 2 ≤ fuel →
      execute fuel token w =
          .ok { w with data :=
            { w.data with numbers := w.data.numbers.set w.data.position.toNat (some 0) } } ∧
        loopIterations fuel token w = .ok N ∧
        dataGet { w.data with
          numbers := w.data.numbers.set w.data.position.toNat (some 0) } = .ok 0 := by
  induction N with
  | zero =>
    intro fuel token child w htype _ _ _ hcell _ hfuel
    obtain ⟨n, rfl⟩ : ∃ n, fuel = n + 1 := ⟨fuel - 1, by omega⟩
    have h0 : execute (n + 1) token w = .ok w ∧ loopIterations (n + 1) token w = .ok 0 :=
      ⟨execute_loop_of_zero n token w htype hcell, loopIterations_of_zero n token w hcell⟩
    have hset : w.data.numbers.set w.data.position.toNat (some 0) = w.data.numbers := by
      exact list_set_of_getElem? _ _ _ (dataGet_eq_ok.mp hcell).2
    rw [hset]
    exact ⟨h0.1, h0.2, hcell⟩
  | succ N ih =>
    intro fuel token child w htype hchildren hctype hcval hcell hN hfuel
    obtain ⟨n, rfl⟩ : ∃ n, fuel = n + 2 := ⟨fuel - 2, by omega⟩
    have hlist : token.childList = [child] := by
      unfold Token.childList; rw [hchildren]
    have hbody : forChildren (execute (n + 1)) [child] w =
        .ok { w with data := { w.data with
          numbers := w.data.numbers.set w.data.position.toNat (some N) } } := by
      simp only [forChildren]
      rw [execute_increment_eq n child w hctype, hcval, dataIncrement_eq_ok hcell]
      have : ((-1 + ((N + 1 : Nat) : Int)) % 256).toNat = N := by omega
      rw [this]
    have hcell' := dataGet_set hcell N
    have hrec := ih (n + 1) token child
      { w with data := { w.data with
          numbers := w.data.numbers.set w.data.position.toNat (some N) } }
      htype hchildren hctype hcval hcell' (by omega) (by omega)
    simp only [List.set_set] at hrec
    refine ⟨?_, ?_, hrec.2.2⟩
    · rw [execute_loop_eq (n + 1) token w htype, hcell]
      simp only [ne_eq, Nat.succ_ne_zero, not_false_eq_true, if_true, hlist, hbody]
      exact hrec.1
    · rw [loopIterations, hcell]
      simp only [ne_eq, Nat.succ_ne_zero, not_false_eq_true, if_true, hlist, hbody]
      rw [hrec.2.1]

/-! ## The turns of a loop -/

theorem loopBodyRuns_zero (fuel : Nat) (token : Token) (w : World) :
    loopBodyRuns fuel token 0 w = .ok w := by
  cases fuel <;> rfl

theorem loopBodyRuns_succ (fuel : Nat) (token : Token) (k : Nat) (w w' : World)
    (h : forChildren (execute fuel) token.childList w = .ok w') :
    loopBodyRuns (fuel + 1) token (k + 1) w = loopBodyRuns fuel token k w' := by
  rw [loopBodyRuns, h]

/-- The count of `loopIterations` is the number of turns the loop of `execute`
takes: when it is `n`, the call of `execute` on the LOOP token returns the world
reached by `n` runs of the body, the current cell was non-zero before each of
them and is zero after the last. -/
theorem loopIterations_execute (fuel : Nat) :
    ∀ (token : Token) (w : World) (n : Nat), token.type = .LOOP_TOKEN →
      loopIterations fuel token w = .ok n →
      execute fuel token w = loopBodyRuns fuel token n w ∧
        (∃ w', loopBodyRuns fuel token n w = .ok w' ∧ dataGet w'.data = .ok 0) ∧
        (∀ k, k < n → ∃ u x, loopBodyRuns fuel token k w = .ok u ∧
          dataGet u.data = .ok x ∧ x ≠ 0) := by
  induction fuel with
  | zero => intro token w n _ h; simp [loopIterations] at h
  | succ f ih =>
    intro token w n htype h
    rw [loopIterations] at h
    rw [execute_loop_eq f token w htype]
    cases hg : dataGet w.data with
    | ok x =>
      rw [hg] at h
      dsimp only at h ⊢
      by_cases hx : x = 0
      · subst hx
        simp only [ne_eq, not_true_eq_false, if_false, Outcome.ok.injEq] at h ⊢
        subst h
        rw [loopBodyRuns_zero]
        exact ⟨rfl, ⟨w, rfl, hg⟩, fun k hk => absurd hk (Nat.not_lt_zero k)⟩
      · simp only [ne_eq, hx, not_false_eq_true, if_true] at h ⊢
        cases hb : forChildren (execute f) token.childList w with
        | ok w1 =>
          rw [hb] at h
          dsimp only at h ⊢
          cases hl : loopIterations f token w1 with
          | ok m =>
            rw [hl] at h
            simp only [Outcome.ok.injEq] at h
            subst h
            obtain ⟨h1, h2, h3⟩ := ih token w1 m htype hl
            rw [loopBodyRuns_succ f token m w w1 hb]
            refine ⟨h1, h2, ?_⟩
            intro k hk
            cases k with
            | zero => exact ⟨w, x, loopBodyRuns_zero _ _ _, hg, hx⟩
            | succ j =>
              rw [loopBodyRuns_succ f token j w w1 hb]
              exact h3 j (by omega)
          | exit1 e => rw [hl] at h; cases h
          | undefined => rw [hl] at h; cases h
          | outOfFuel => rw [hl] at h; cases h
        | exit1 e => rw [hb] at h; cases h
        | undefined => rw [hb] at h; cases h
        | outOfFuel => rw [hb] at h; cases h
    | exit1 e => rw [hg] at h; cases h
    | undefined => rw [hg] at h; cases h
    | outOfFuel => rw [hg] at h; cases h

/-- Whenever `execute` returns on a LOOP token, `loopIterations` yields the
count of its turns. -/
theorem loopIterations_of_execute (fuel : Nat) :
    ∀ (token : Token) (w w' : World), token.type = .LOOP_TOKEN →
      execute fuel token w = .ok w' → ∃ n, loopIterations fuel token w = .ok n := by
  induction fuel with
  | zero => intro token w w' _ h; simp [execute] at h
  | succ f ih =>
    intro token w w' htype h
    rw [execute_loop_eq f token w htype] at h
    rw [loopIterations]
    cases hg : dataGet w.data with
    | ok x =>
      rw [hg] at h
      dsimp only at h ⊢
      by_cases hx : x = 0
      · subst hx
        exact ⟨0, by simp⟩
      · simp only [ne_eq, hx, not_false_eq_true, if_true] at h ⊢
        cases hb : forChildren (execute f) token.childList w with
        | ok w1 =>
          rw [hb] at h
          dsimp only at h ⊢
          obtain ⟨m, hm⟩ := ih token w1 w' htype h
          exact ⟨m + 1, by rw [hm]⟩
        | exit1 e => rw [hb] at h; cases h
        | undefined => rw [hb] at h; cases h
        | outOfFuel => rw [hb] at h; cases h
    | exit1 e => rw [hg] at h; cases h
    | undefined => rw [hg] at h; cases h
    | outOfFuel => rw [hg] at h; cases h

theorem execute_output_eq (fuel : Nat) (token : Token) (w : World)
    (htype : token.type = .OUTPUT_TOKEN) :
    execute (fuel + 1) token w =
      match dataGet w.data with
      | .ok x => .ok { w with stdout := w.stdout ++ [x] }
      | .exit1 e => .exit1 e
      | .undefined => .undefined
      | .outOfFuel => .outOfFuel := by
  rw [execute, htype]

/-- The turns of the loop `[-]` seen through the code: with an OUTPUT token
put after the INCREMENT(-1) in the body, the loop run on a cell holding
`N < 256` writes exactly `N` bytes, the values `N - 1` down to 0, one per turn,
and leaves the cell at 0. -/
theorem execute_countdown_loop (N : Nat) :
    ∀ (fuel : Nat) (token dec out : Token) (w : World),
      token.type = .LOOP_TOKEN → token.children = some [dec, out] →
      dec.type = .INCREMENT_TOKEN → dec.value = -1 → out.type = .OUTPUT_TOKEN →
      dataGet w.data = .ok N → N < 256 → N + 2 ≤ fuel →
      execute fuel token w =
        .ok { data := { w.data with
                numbers := w.data.numbers.set w.data.position.toNat (some 0) },
              stdin := w.stdin,
              stdout := w.stdout ++ (List.range N).reverse } := by
  induction N with
  | zero =>
    intro fuel token dec out w htype _ _ _ _ hcell _ hfuel
    obtain ⟨n, rfl⟩ : ∃ n, fuel = n + 1 := ⟨fuel - 1, by omega⟩
    have hset : w.data.numbers.set w.data.position.toNat (some 0) = w.data.numbers :=
      list_set_of_getElem? _ _ _ (dataGet_eq_ok.mp hcell).2
    rw [execute_loop_of_zero n token w htype hcell, hset]
    simp
  | succ N ih =>
    intro fuel token dec out w htype hchildren hdtype hdval hotype hcell hN hfuel
    obtain ⟨n, rfl⟩ : ∃ n, fuel = n + 2 := ⟨fuel - 2, by omega⟩
    have hlist : token.childList = [dec, out] := by
      unfold Token.childList; rw [hchildren]
    have hcell' := dataGet_set hcell N
    have hbody : forChildren (execute (n + 1)) [dec, out] w =
        .ok { data := { w.data with
                numbers := w.data.numbers.set w.data.position.toNat (some N) },
              stdin := w.stdin, stdout := w.stdout ++ [N] } := by
      simp only [forChildren]
      rw [execute_increment_eq n dec w hdtype, hdval, dataIncrement_eq_ok hcell]
      have : ((-1 + ((N + 1 : Nat) : Int)) % 256).toNat = N := by omega
      rw [this]
      dsimp only
      rw [execute_output_eq n out _ hotype]
      dsimp only
      rw [hcell']
    have hrec := ih (n + 1) token dec out
      { data := { w.data with
          numbers := w.data.numbers.set w.data.position.toNat (some N) },
        stdin := w.stdin, stdout := w.stdout ++ [N] }
      htype hchildren hdtype hdval hotype hcell' (by omega) (by omega)
    simp only [List.set_set] at hrec
    rw [execute_loop_eq (n + 1) token w htype, hcell]
    simp only [ne_eq, Nat.succ_ne_zero, not_false_eq_true, if_true, hlist, hbody]
    rw [hrec]
    simp [List.range_succ]

theorem loopBodyRuns_clear_loop (k : Nat) :
    ∀ (fuel N : Nat) (token child : Token) (w : World),
      token.children = some [child] → child.type = .INCREMENT_TOKEN → child.value = -1 →
      dataGet w.data = .ok N → N < 256 → k ≤ N → k + 1 ≤ fuel →
      loopBodyRuns fuel token k w =
        .ok { w with data := { w.data with
          numbers := w.data.numbers.set w.data.position.toNat (some (N - k)) } } := by
  induction k with
  | zero =>
    intro fuel N token child w _ _ _ hcell _ _ _
    rw [loopBodyRuns_zero, Nat.sub_zero,
      list_set_of_getElem? _ _ _ (dataGet_eq_ok.mp hcell).2]
  | succ k ih =>
    intro fuel N token child w hchildren hctype hcval hcell hN hk hfuel
    obtain ⟨f, rfl⟩ : ∃ f, fuel = f + 2 := ⟨fuel - 2, by omega⟩
    obtain ⟨M, rfl⟩ : ∃ M, N = M + 1 := ⟨N - 1, by omega⟩
    have hlist : token.childList = [child] := by
      unfold Token.childList; rw [hchildren]
    have hbody : forChildren (execute (f + 1)) token.childList w =
        .ok { w with data := { w.data with
          numbers := w.data.numbers.set w.data.position.toNat (some M) } } := by
      rw [hlist]
      simp only [forChildren]
      rw [execute_increment_eq f child w hctype, hcval, dataIncrement_eq_ok hcell]
      have : ((-1 + ((M + 1 : Nat) : Int)) % 256).toNat = M := by omega
      rw [this]
    rw [loopBodyRuns_succ (f + 1) token k w _ hbody,
      ih (f + 1) M token child _ hchildren hctype hcval (dataGet_set hcell M) (by omega)
        (by omega) (by omega)]
    simp only [List.set_set]
    rw [show M + 1 - (k + 1) = M - k from by omega]

/-- C7: on a tape whose current cell holds `N < 256`, executing a LOOP token
whose only child is INCREMENT(-1) terminates (any fuel of at least `N + 2`) and
returns the world with the current cell set to 0 and everything else (other
cells, position, size, `stdin`, `stdout`) as it was. Its body is run exactly
`N` times: the count of `loopIterations` is `N`, the world `execute` returns is
the one reached by `N` runs of the body, and after `k ≤ N` runs the cell holds
`N - k`, so the test lets the loop go on before each of the `N` runs and stops
it after the last. The count is that of the loop of `execute`: for every LOOP
token, whatever its children, a count `n` of `loopIterations` means that
`execute` returns the world reached by `n` runs of the body, with a non-zero
cell before each run and a zero cell after the last. -/
theorem execute_clear_loop (N fuel : Nat) (token child : Token) (w : World)
    (htype : token.type = .LOOP_TOKEN) (hchildren : token.children = some [child])
    (hctype : child.type = .INCREMENT_TOKEN) (hcval : child.value = -1)
    (hcell : dataGet w.data = .ok N) (hN : N < 256) (hfuel : N + 2 ≤ fuel) :
    execute fuel token w =
        .ok { w with data :=
          { w.data with numbers := w.data.numbers.set w.data.position.toNat (some 0) } } ∧
      loopIterations fuel token w = .ok N ∧
      dataGet { w.data with
        numbers := w.data.numbers.set w.data.position.toNat (some 0) } = .ok 0 ∧
      execute fuel token w = loopBodyRuns fuel token N w ∧
      (∀ k, k ≤ N →
        loopBodyRuns fuel token k w =
            .ok { w with data := { w.data with
              numbers := w.data.numbers.set w.data.position.toNat (some (N - k)) } } ∧
          dataGet { w.data with
            numbers := w.data.numbers.set w.data.position.toNat (some (N - k)) } =
              .ok (N - k)) ∧
      (∀ (f : Nat) (t : Token) (u : World) (n : Nat), t.type = .LOOP_TOKEN →
        loopIterations f t u = .ok n →
        execute f t u = loopBodyRuns f t n u ∧
          (∃ u', loopBodyRuns f t n u = .ok u' ∧ dataGet u'.data = .ok 0) ∧
          (∀ k, k < n → ∃ v x, loopBodyRuns f t k u = .ok v ∧
            dataGet v.data = .ok x ∧ x ≠ 0)) := by
  have h := execute_clear_loop_aux N fuel token child w htype hchildren hctype hcval hcell hN
    hfuel
  refine ⟨h.1, h.2.1, h.2.2, (loopIterations_execute fuel token w N htype h.2.1).1, ?_, ?_⟩
  · intro k hk
    exact ⟨loopBodyRuns_clear_loop k fuel N token child w hchildren hctype hcval hcell hN hk
      (by omega), dataGet_set hcell (N - k)⟩
  · intro f t u n ht hn
    exact loopIterations_execute f t u n ht hn

set_option maxRecDepth 20000 in
/-- C7 on `+[-]`: after the `+` the current cell of the initial tape holds 1;
the loop `[-]` runs its body exactly once and leaves the cell at 0, `stdout`
empty; the whole program ends with status 0 and no output. The count seen
through the code: `+++[->+<]>.` writes the byte 3, one unit moved to the next
cell by each of the three turns of the loop. -/
theorem execute_clear_loop_witness :
    execute 3 (Token.mk .LOOP_TOKEN 0 (some [Token.mk .INCREMENT_TOKEN (-1) none 0]) 20)
        { data := { dataInit with
            numbers := dataInit.numbers.set dataInit.position.toNat (some 1) },
          stdin := [], stdout := [] } =
      .ok { data := { dataInit with
              numbers := (dataInit.numbers.set dataInit.position.toNat (some 1)).set
                dataInit.position.toNat (some 0) },
            stdin := [], stdout := [] } ∧
    loopIterations 3 (Token.mk .LOOP_TOKEN 0 (some [Token.mk .INCREMENT_TOKEN (-1) none 0]) 20)
        { data := { dataInit with
            numbers := dataInit.numbers.set dataInit.position.toNat (some 1) },
          stdin := [], stdout := [] } = .ok 1 ∧
    execute 3 (Token.mk .LOOP_TOKEN 0 (some [Token.mk .INCREMENT_TOKEN (-1) none 0]) 20)
        { data := { dataInit with
            numbers := dataInit.numbers.set dataInit.position.toNat (some 1) },
          stdin := [], stdout := [] } =
      loopBodyRuns 3
        (Token.mk .LOOP_TOKEN 0 (some [Token.mk .INCREMENT_TOKEN (-1) none 0]) 20) 1
        { data := { dataInit with
            numbers := dataInit.numbers.set dataInit.position.toNat (some 1) },
          stdin := [], stdout := [] } ∧
    main 4 ['+', '[', '-', ']'] [] = .ok { status := 0, stdout := [], diagnostic := none } ∧
    main 6 ['+', '+', '+', '[', '-', '>', '+', '<', ']', '>', '.'] [] =
      .ok { status := 0, stdout := [3], diagnostic := none } :=
  have h := execute_clear_loop 1 3
    (Token.mk .LOOP_TOKEN 0 (some [Token.mk .INCREMENT_TOKEN (-1) none 0]) 20)
    (Token.mk .INCREMENT_TOKEN (-1) none 0)
    { data := { dataInit with
        numbers := dataInit.numbers.set dataInit.position.toNat (some 1) },
      stdin := [], stdout := [] }
    rfl rfl rfl rfl (dataGet_set dataGet_dataInit 1) (by decide) (by decide)
  ⟨h.1, h.2.1, h.2.2.2.1, rfl, rfl⟩

/-! ## End-to-end runs -/

theorem toUChar_of_lt (b : Nat) (h : b < 256) : toUChar (b : Int) = b := by
  unfold toUChar; omega

theorem tokenizer_input_output :
    tokenizer [',', '.'] (tokenInit .MAIN_BLOCK_TOKEN) =
      .ok (true, [], Token.mk .MAIN_BLOCK_TOKEN 0
        (some [Token.mk .INPUT_TOKEN 0 none 0, Token.mk .OUTPUT_TOKEN 0 none 0]) 20) := rfl

theorem tokenizer_plus_plus_output :
    tokenizer ['+', '+', '.'] (tokenInit .MAIN_BLOCK_TOKEN) =
      .ok (true, [], Token.mk .MAIN_BLOCK_TOKEN 0
        (some [Token.mk .INCREMENT_TOKEN 2 none 0, Token.mk .OUTPUT_TOKEN 0 none 0]) 20) := rfl

/-- C8: for every byte `b` and every remaining input, the source `,.` run on
the initial tape with `stdin` holding `b` followed by the remaining input ends
normally (status 0, any fuel of at least 2) having written exactly the byte
`b` to `stdout`. -/
theorem main_echo_byte (b : Nat) (rest : List Nat) (fuel : Nat) (hb : b < 256)
    (hfuel : 2 ≤ fuel) :
    main fuel [',', '.'] (b :: rest) =
      .ok { status := 0, stdout := [b], diagnostic := none } := by
  obtain ⟨n, rfl⟩ : ∃ n, fuel = n + 2 := ⟨fuel - 2, by omega⟩
  unfold main
  rw [tokenizer_input_output]
  simp only [execute, Token.type, Token.childList, Token.children, forChildren, fgetc,
    toUChar_of_lt b hb, dataSet_eq_ok dataGet_dataInit, dataGet_set dataGet_dataInit]
  rfl

/-- C8 at the byte 65 of the specification. -/
theorem main_echo_byte_witness :
    main 2 [',', '.'] [65] = .ok { status := 0, stdout := [65], diagnostic := none } :=
  main_echo_byte 65 [] 2 (by decide) (by decide)

/-- C9: for every content of `stdin`, the source `++.` run on the initial tape
(200 zero cells, position 100) ends normally (status 0, any fuel of at least
2) having written exactly one byte, of value 2, to `stdout`. -/
theorem main_plus_plus_output (stdin : List Nat) (fuel : Nat) (hfuel : 2 ≤ fuel) :
    main fuel ['+', '+', '.'] stdin =
      .ok { status := 0, stdout := [2], diagnostic := none } := by
  obtain ⟨n, rfl⟩ : ∃ n, fuel = n + 2 := ⟨fuel - 2, by omega⟩
  unfold main
  rw [tokenizer_plus_plus_output]
  simp only [execute, Token.type, Token.childList, Token.children, Token.value, forChildren,
    dataIncrement_eq_ok dataGet_dataInit, dataGet_set dataGet_dataInit]
  rfl

/-- C9 with `stdin` holding the bytes 9, 8, 7. -/
theorem main_plus_plus_output_witness :
    main 2 ['+', '+', '.'] [9, 8, 7] =
      .ok { status := 0, stdout := [2], diagnostic := none } :=
  main_plus_plus_output [9, 8, 7] 2 (by decide)

/-! ## Growth of the tape at the high end -/

theorem toSizeT_of_nonneg (z : Int) (h0 : 0 ≤ z) (h1 : z ≤ 2147483647) :
    toSizeT z = z.toNat := by
  unfold toSizeT
  congr 1
  omega

theorem dataInit_wf : dataInit.wf := List.length_replicate 200 (some 0)

theorem dataInit_valid : dataInit.valid := by decide

/-- C10: on a tape whose block holds `size` cells (valid position or not), a
move by `delta` with `position + delta ≥ size` (the sum being
representable as an `int`) yields a tape of size `size + 200` in which every
index below the old size holds what it held before, every index from the old
size up to the new one reads 0, and the position is the old position plus
`delta`. -/
theorem dataMove_high_growth (data : Data) (delta : Int)
    (hwf : data.wf)
    (hge : (data.size : Int) ≤ data.position + delta)
    (hint : data.position + delta ≤ 2147483647) :
    (dataMove data delta).size = data.size + 200 ∧
      (dataMove data delta).wf ∧
      (∀ i, i < data.size → (dataMove data delta).numbers[i]? = data.numbers[i]?) ∧
      (∀ i, data.size ≤ i → i < data.size + 200 →
        (dataMove data delta).numbers[i]? = some (some 0)) ∧
      (dataMove data delta).position = data.position + delta := by
  have hpos : wrapInt (data.position + delta) = data.position + delta :=
    wrapInt_of_range _ (by omega) hint
  have hbranch : toSizeT (data.position + delta) ≥ data.size := by
    rw [toSizeT_of_nonneg _ (by omega) hint]
    omega
  have hmove : dataMove data delta =
      { numbers := data.numbers ++ List.replicate 200 (some 0)
        position := data.position + delta
        size := data.size + 200 } := by
    unfold dataMove
    simp only [hpos]
    rw [if_pos hbranch]
  unfold Data.wf at hwf
  rw [hmove]
  refine ⟨rfl, ?_, ?_, ?_, rfl⟩
  · simp only [Data.wf, List.length_append, List.length_replicate, hwf]
  · intro i hi
    exact List.getElem?_append_left (by omega)
  · intro i h1 h2
    show (data.numbers ++ List.replicate 200 (some 0))[i]? = some (some 0)
    rw [List.getElem?_append_right (by omega), List.getElem?_replicate_of_lt (by omega)]

/-- C10 on the initial tape (position 100, size 200) moved by +150: the size
becomes 400 and the position 250. -/
theorem dataMove_high_growth_witness :
    (dataMove dataInit 150).size = 400 ∧ (dataMove dataInit 150).position = 250 :=
  have h := dataMove_high_growth dataInit 150 dataInit_wf (by decide) (by decide)
  ⟨h.1, h.2.2.2.2⟩

/-! ## The position of the tape -/

theorem dataSet_position_size {data data' : Data} {v : Nat} (h : dataSet data v = .ok data') :
    data'.position = data.position ∧ data'.size = data.size := by
  unfold dataSet at h
  split_ifs at h
  cases h
  exact ⟨rfl, rfl⟩

theorem dataIncrement_position_size {data data' : Data} {v : Int}
    (h : dataIncrement data v = .ok data') :
    data'.position = data.position ∧ data'.size = data.size := by
  unfold dataIncrement at h
  cases hg : dataGet data with
  | ok x => rw [hg] at h; exact dataSet_position_size h
  | exit1 e => rw [hg] at h; cases h
  | undefined => rw [hg] at h; cases h
  | outOfFuel => rw [hg] at h; cases h

/-- On a valid tape `dataSet` and `dataIncrement` keep the position valid. -/
theorem dataSet_dataIncrement_valid (data data' : Data) (hvalid : data.valid) :
    (∀ v : Nat, dataSet data v = .ok data' → data'.valid) ∧
      (∀ v : Int, dataIncrement data v = .ok data' → data'.valid) := by
  unfold Data.valid at hvalid ⊢
  constructor
  · intro v h
    obtain ⟨h1, h2⟩ := dataSet_position_size h
    rw [h1, h2]; exact hvalid
  · intro v h
    obtain ⟨h1, h2⟩ := dataIncrement_position_size h
    rw [h1, h2]; exact hvalid

/-- A move that ends at most one chunk past the high end keeps the position
valid. -/
theorem dataMove_valid_of_range (data : Data) (delta : Int) (hvalid : data.valid)
    (hlo : 0 ≤ data.position + delta) (hhi : data.position + delta < data.size + 200)
    (hint : data.position + delta ≤ 2147483647) :
    (dataMove data delta).valid := by
  have hpos : wrapInt (data.position + delta) = data.position + delta :=
    wrapInt_of_range _ (by omega) hint
  unfold dataMove
  simp only [hpos]
  rw [toSizeT_of_nonneg _ hlo hint]
  unfold Data.valid at hvalid ⊢
  split_ifs with h1 h2
  · dsimp only; push_cast; omega
  · omega
  · dsimp only; omega

/-- A move to a negative position takes the `realloc` branch: the `int` is
converted to `size_t` in the comparison with `size`, so the block grows at the
high end and the position stays negative. -/
theorem dataMove_negative (data : Data) (delta : Int)
    (hsize : data.size ≤ 9223372036854775808)
    (hneg : data.position + delta < 0) (hint : -2147483648 ≤ data.position + delta) :
    dataMove data delta =
      { numbers := data.numbers ++ List.replicate 200 (some 0)
        position := data.position + delta
        size := data.size + 200 } := by
  have hpos : wrapInt (data.position + delta) = data.position + delta :=
    wrapInt_of_range _ hint (by omega)
  have hbranch : toSizeT (data.position + delta) ≥ data.size := by
    unfold toSizeT
    omega
  unfold dataMove
  simp only [hpos]
  rw [if_pos hbranch]

set_option maxRecDepth 20000 in
/-- C11 fails on the code: from the initial tape (position 100, size 200) a
move by -101 leaves position -1 (size 400), and a move by +300 leaves position
400 with size 400; neither is a valid index. The program of 101 `<` followed by
`.` then reads outside the tape. -/
theorem dataMove_breaks_position_invariant :
    dataInit.valid ∧
      (dataMove dataInit (-101)).position = -1 ∧ (dataMove dataInit (-101)).size = 400 ∧
      ¬ (dataMove dataInit (-101)).valid ∧
      (dataMove dataInit 300).position = 400 ∧ (dataMove dataInit 300).size = 400 ∧
      ¬ (dataMove dataInit 300).valid ∧
      main 2 (List.replicate 101 '<' ++ ['.']) [] = .undefined := by
  refine ⟨by decide, by decide, by decide, by decide, by decide, by decide, by decide, ?_⟩
  rfl

set_option maxRecDepth 20000 in
/-- C12 fails on the code: on the initial tape with 5 in the current cell
(index 100), a move by -101 gives size 400 but appends the 200 zero cells at
the high end: cell 100 still holds 5 and cell 300, where a prepended chunk
would have put the old cell 100, reads 0. -/
theorem dataMove_low_growth_appends :
    dataIncrement dataInit 5 =
        .ok { dataInit with numbers := dataInit.numbers.set 100 (some 5) } ∧
      (dataMove { dataInit with numbers := dataInit.numbers.set 100 (some 5) } (-101)).size
        = 400 ∧
      (dataMove { dataInit with numbers := dataInit.numbers.set 100 (some 5) } (-101)).numbers
        = dataInit.numbers.set 100 (some 5) ++ List.replicate 200 (some 0) ∧
      (dataMove { dataInit with
        numbers := dataInit.numbers.set 100 (some 5) } (-101)).numbers[100]? = some (some 5) ∧
      (dataMove { dataInit with
        numbers := dataInit.numbers.set 100 (some 5) } (-101)).numbers[300]? = some (some 0) ∧
      (dataMove { dataInit with
        numbers := dataInit.numbers.set 100 (some 5) } (-101)).position = -101 + 100 := by
  refine ⟨by decide, by decide, by decide, by decide, by decide, by decide⟩

/-! ## Wrap-around -/

/-- C13: when the current cell holds `x < 256` and `x + v` is representable as
an `int`, `dataIncrement` by `v` followed by `dataIncrement` by
`256 - (v mod 256)` (the remainder taken either as the mathematical modulo or
as the truncating `%` of C) succeeds and gives back the tape it started from,
so the current cell holds `x` again. -/
theorem dataIncrement_wrap_around (data : Data) (x : Nat) (v : Int)
    (hcell : dataGet data = .ok x) (hx : x < 256)
    (_hlo : -2147483648 ≤ (x : Int) + v) (_hhi : (x : Int) + v ≤ 2147483647) :
    ∃ data1, dataIncrement data v = .ok data1 ∧
      dataIncrement data1 (256 - v % 256) = .ok data ∧
      dataIncrement data1 (256 - Int.tmod v 256) = .ok data ∧
      dataGet data = .ok x := by
  have h1 := dataIncrement_eq_ok hcell v
  have hcell1 := dataGet_set hcell ((v + (x : Int)) % 256).toNat
  have hback : ∀ (m : Int) (d1 : Data), m % 256 = v % 256 → dataIncrement data v = .ok d1 →
      dataIncrement d1 (256 - m) = .ok data := by
    intro m d1 hm hd1
    rw [h1] at hd1
    cases hd1
    rw [dataIncrement_eq_ok hcell1]
    dsimp only
    rw [List.set_set]
    have hval : ((256 - m + (((v + (x : Int)) % 256).toNat : Int)) % 256).toNat = x := by
      omega
    rw [hval, list_set_of_getElem? _ _ _ (dataGet_eq_ok.mp hcell).2]
  refine ⟨_, h1, hback (v % 256) _ (by omega) h1, hback (Int.tmod v 256) _ ?_ h1, hcell⟩
  rw [Int.tmod_def]
  omega

/-- C13 at the example of the specification: cell 0 incremented by 5 holds 5,
and the second increment (by 256 - 5) brings the initial tape back, cell 0. -/
theorem dataIncrement_wrap_around_witness :
    ∃ data1, dataIncrement dataInit 5 = .ok data1 ∧ dataGet data1 = .ok 5 ∧
      dataIncrement data1 251 = .ok dataInit ∧ dataGet dataInit = .ok 0 := by
  obtain ⟨data1, h1, h2, _, h4⟩ :=
    dataIncrement_wrap_around dataInit 0 5 dataGet_dataInit (by decide) (by decide) (by decide)
  refine ⟨data1, h1, ?_, h2, h4⟩
  rw [dataIncrement_eq_ok dataGet_dataInit] at h1
  cases h1
  exact dataGet_set dataGet_dataInit _

/-! ## Input at end of file -/

theorem dataSet_of_valid (data : Data) (v : Nat) (hwf : data.wf) (hvalid : data.valid) :
    dataSet data v =
      .ok { data with numbers := data.numbers.set data.position.toNat (some v) } := by
  unfold Data.wf at hwf
  unfold Data.valid at hvalid
  unfold dataSet
  rw [if_pos ⟨hvalid.1, by omega⟩]

theorem dataGet_set_of_valid (data : Data) (v : Nat) (hwf : data.wf) (hvalid : data.valid) :
    dataGet { data with numbers := data.numbers.set data.position.toNat (some v) } = .ok v := by
  unfold Data.wf at hwf
  unfold Data.valid at hvalid
  rw [dataGet_eq_ok]
  exact ⟨hvalid.1, List.getElem?_set_self (by omega)⟩

theorem execute_input_eq (fuel : Nat) (token : Token) (w : World)
    (htype : token.type = .INPUT_TOKEN) :
    execute (fuel + 1) token w =
      match dataSet w.data (toUChar (fgetc w.stdin).1) with
      | .ok d => .ok { w with data := d, stdin := (fgetc w.stdin).2 }
      | .exit1 e => .exit1 e
      | .undefined => .undefined
      | .outOfFuel => .outOfFuel := by
  rw [execute, htype]

/-- C14: on a tape whose position is a valid index, executing an INPUT token
with `stdin` exhausted stores 255 (the `EOF` value -1 converted to `unsigned
char`) in the current cell, and with a byte `b` available stores `b` and
consumes it; position, size, the other cells and `stdout` are unchanged. -/
theorem execute_input (fuel : Nat) (token : Token) (data : Data) (stdout : List Nat)
    (htype : token.type = .INPUT_TOKEN) (hwf : data.wf) (hvalid : data.valid) :
    (execute (fuel + 1) token { data := data, stdin := [], stdout := stdout } =
        .ok { data := { data with
                numbers := data.numbers.set data.position.toNat (some 255) },
              stdin := [], stdout := stdout } ∧
      dataGet { data with
        numbers := data.numbers.set data.position.toNat (some 255) } = .ok 255) ∧
    (∀ (b : Nat) (rest : List Nat), b < 256 →
      execute (fuel + 1) token { data := data, stdin := b :: rest, stdout := stdout } =
        .ok { data := { data with
                numbers := data.numbers.set data.position.toNat (some b) },
              stdin := rest, stdout := stdout } ∧
      dataGet { data with
        numbers := data.numbers.set data.position.toNat (some b) } = .ok b) ∧
    (∀ (v : Nat) (i : Nat), i ≠ data.position.toNat →
      (data.numbers.set data.position.toNat (some v))[i]? = data.numbers[i]?) := by
  refine ⟨⟨?_, dataGet_set_of_valid data 255 hwf hvalid⟩, ?_, ?_⟩
  · rw [execute_input_eq fuel token _ htype]
    dsimp only [fgetc]
    rw [show toUChar (-1) = 255 from rfl, dataSet_of_valid data 255 hwf hvalid]
  · intro b rest hb
    refine ⟨?_, dataGet_set_of_valid data b hwf hvalid⟩
    rw [execute_input_eq fuel token _ htype]
    dsimp only [fgetc]
    rw [toUChar_of_lt b hb, dataSet_of_valid data b hwf hvalid]
  · intro v i hi
    exact List.getElem?_set_ne (Ne.symm hi)

/-- C14 on the initial tape with `stdin` exhausted: the current cell becomes
255. -/
theorem execute_input_witness :
    execute 1 (Token.mk .INPUT_TOKEN 0 none 0) { data := dataInit, stdin := [], stdout := [] } =
        .ok { data := { dataInit with
                numbers := dataInit.numbers.set dataInit.position.toNat (some 255) },
              stdin := [], stdout := [] } ∧
      dataGet { dataInit with
        numbers := dataInit.numbers.set dataInit.position.toNat (some 255) } = .ok 255 :=
  (execute_input 0 (Token.mk .INPUT_TOKEN 0 none 0) dataInit [] rfl dataInit_wf
    dataInit_valid).1

/-! ## What lies after the closing bracket is not read -/

/-- A call that returned on a `]` returns in the same way, with the same
parent, when more characters follow in the stream; they stay unread. -/
theorem tokenizerLoop_append_of_closed :
    ∀ (fuel fuel' : Nat) (file extra : List Char) (parent current : Token) (rest : List Char)
      (p : Token), tokenizerLoop fuel file parent current = .ok (false, rest, p) →
      (file ++ extra).length < fuel' →
      tokenizerLoop fuel' (file ++ extra) parent current = .ok (false, rest ++ extra, p) := by
  intro fuel
  induction fuel with
  | zero => intro fuel' file extra parent current rest p h; simp [tokenizerLoop] at h
  | succ n ih =>
    intro fuel' file extra parent current rest p h hf
    cases file with
    | nil =>
      rw [tokenizerLoop_nil] at h
      cases ha : tokenAppend parent current with
      | ok a => rw [ha] at h; simp at h
      | exit1 e => rw [ha] at h; cases h
      | undefined => rw [ha] at h; cases h
      | outOfFuel => rw [ha] at h; cases h
    | cons c file =>
      rw [List.cons_append] at hf ⊢
      simp only [List.length_cons] at hf
      obtain ⟨m, rfl⟩ : ∃ m, fuel' = m + 1 := ⟨fuel' - 1, by omega⟩
      by_cases h1 : c = ']'
      · subst h1
        rw [tokenizerLoop_close] at h ⊢
        cases ha : tokenAppend parent current with
        | ok a =>
          rw [ha] at h
          simp only [Outcome.ok.injEq, Prod.mk.injEq, true_and] at h
          obtain ⟨rfl, rfl⟩ := h
          rfl
        | exit1 e => rw [ha] at h; cases h
        | undefined => rw [ha] at h; cases h
        | outOfFuel => rw [ha] at h; cases h
      · by_cases h2 : c = '['
        · subst h2
          rw [tokenizerLoop_open] at h ⊢
          cases hfl : flushInit parent current .LOOP_TOKEN with
          | ok a =>
            obtain ⟨p1, cur1⟩ := a
            rw [hfl] at h
            dsimp only at h ⊢
            cases hin : tokenizerLoop n file cur1 (tokenInit .NOOP_TOKEN) with
            | ok r =>
              obtain ⟨b2, file2, cur2⟩ := r
              rw [hin] at h
              cases b2 with
              | true => cases h
              | false =>
                dsimp only at h
                have hlen := (tokenizerLoop_rest_length _ _ _ _ _ _ _ hin).1
                rw [ih m file extra cur1 _ file2 cur2 hin (by omega)]
                dsimp only
                exact ih m file2 extra p1 cur2 rest p h
                  (by simp only [List.length_append] at hf ⊢; omega)
            | exit1 e => rw [hin] at h; cases h
            | undefined => rw [hin] at h; cases h
            | outOfFuel => rw [hin] at h; cases h
          | exit1 e => rw [hfl] at h; cases h
          | undefined => rw [hfl] at h; cases h
          | outOfFuel => rw [hfl] at h; cases h
        · rw [tokenizerLoop_switch n c file parent current h1 h2] at h
          rw [tokenizerLoop_switch m c _ parent current h1 h2]
          cases hs : switchStep c parent current with
          | ok a =>
            obtain ⟨p1, cur1⟩ := a
            rw [hs] at h
            exact ih m file extra p1 cur1 rest p h (by omega)
          | exit1 e => rw [hs] at h; cases h
          | undefined => rw [hs] at h; cases h
          | outOfFuel => rw [hs] at h; cases h

/-- A call that returned at the end of the stream returns on a `]` put after
the stream, with the same parent, and leaves unread whatever follows it. -/
theorem tokenizerLoop_append_close_of_eof :
    ∀ (fuel fuel' : Nat) (file extra : List Char) (parent current : Token) (rest : List Char)
      (p : Token), tokenizerLoop fuel file parent current = .ok (true, rest, p) →
      (file ++ ']' :: extra).length < fuel' →
      tokenizerLoop fuel' (file ++ ']' :: extra) parent current = .ok (false, extra, p) := by
  intro fuel
  induction fuel with
  | zero => intro fuel' file extra parent current rest p h; simp [tokenizerLoop] at h
  | succ n ih =>
    intro fuel' file extra parent current rest p h hf
    obtain ⟨m, rfl⟩ : ∃ m, fuel' = m + 1 := ⟨fuel' - 1, by omega⟩
    cases file with
    | nil =>
      rw [tokenizerLoop_nil] at h
      rw [List.nil_append, tokenizerLoop_close]
      cases ha : tokenAppend parent current with
      | ok a =>
        rw [ha] at h
        simp only [Outcome.ok.injEq, Prod.mk.injEq, true_and] at h
        obtain ⟨_, rfl⟩ := h
        rfl
      | exit1 e => rw [ha] at h; cases h
      | undefined => rw [ha] at h; cases h
      | outOfFuel => rw [ha] at h; cases h
    | cons c file =>
      rw [List.cons_append] at hf ⊢
      simp only [List.length_cons] at hf
      by_cases h1 : c = ']'
      · subst h1
        rw [tokenizerLoop_close] at h
        cases ha : tokenAppend parent current with
        | ok a => rw [ha] at h; simp at h
        | exit1 e => rw [ha] at h; cases h
        | undefined => rw [ha] at h; cases h
        | outOfFuel => rw [ha] at h; cases h
      · by_cases h2 : c = '['
        · subst h2
          rw [tokenizerLoop_open] at h ⊢
          cases hfl : flushInit parent current .LOOP_TOKEN with
          | ok a =>
            obtain ⟨p1, cur1⟩ := a
            rw [hfl] at h
            dsimp only at h ⊢
            cases hin : tokenizerLoop n file cur1 (tokenInit .NOOP_TOKEN) with
            | ok r =>
              obtain ⟨b2, file2, cur2⟩ := r
              rw [hin] at h
              cases b2 with
              | true => cases h
              | false =>
                dsimp only at h
                have hlen := (tokenizerLoop_rest_length _ _ _ _ _ _ _ hin).1
                rw [tokenizerLoop_append_of_closed n m file (']' :: extra) cur1 _ file2 cur2 hin
                  (by omega)]
                dsimp only
                exact ih m file2 extra p1 cur2 rest p h
                  (by simp only [List.length_append, List.length_cons] at hf ⊢; omega)
            | exit1 e => rw [hin] at h; cases h
            | undefined => rw [hin] at h; cases h
            | outOfFuel => rw [hin] at h; cases h
          | exit1 e => rw [hfl] at h; cases h
          | undefined => rw [hfl] at h; cases h
          | outOfFuel => rw [hfl] at h; cases h
        · rw [tokenizerLoop_switch n c file parent current h1 h2] at h
          rw [tokenizerLoop_switch m c _ parent current h1 h2]
          cases hs : switchStep c parent current with
          | ok a =>
            obtain ⟨p1, cur1⟩ := a
            rw [hs] at h
            exact ih m file extra p1 cur1 rest p h (by omega)
          | exit1 e => rw [hs] at h; cases h
          | undefined => rw [hs] at h; cases h
          | outOfFuel => rw [hs] at h; cases h

theorem tokenizer_balanced_ok (file : List Char) (h : Balanced file) :
    ∃ tree, tokenizer file (tokenInit .MAIN_BLOCK_TOKEN) = .ok (true, [], tree) := by
  have hs : scan 0 file = .eof := by
    rw [scan_of_noStrayClose file 0 h.1, if_pos (by have := h.2; omega)]
  have h1 := tokenizerLoop_scan (file.length + 1) file (tokenInit .MAIN_BLOCK_TOKEN)
    (tokenInit .NOOP_TOKEN) tokenInit_main_isParent (by omega)
  rw [hs] at h1
  obtain ⟨p, hp, _⟩ := h1
  exact ⟨p, hp⟩

/-- C19: for a balanced source `s1` and any `s2`, the top-level call on
`s1 ++ ']' :: s2` returns (status `false`) with exactly the tree of `s1` alone
and with `s2` unread, whatever `s2` holds; `main` discards the status, so the
process does what it does on `s1` alone: the tree is executed and no parse
error is raised. -/
theorem tokenizer_top_level_close (s1 s2 : List Char) (stdin : List Nat) (fuel : Nat)
    (h : Balanced s1) :
    ∃ tree, tokenizer s1 (tokenInit .MAIN_BLOCK_TOKEN) = .ok (true, [], tree) ∧
      tokenizer (s1 ++ ']' :: s2) (tokenInit .MAIN_BLOCK_TOKEN) = .ok (false, s2, tree) ∧
      main fuel (s1 ++ ']' :: s2) stdin = main fuel s1 stdin ∧
      main fuel (s1 ++ ']' :: s2) stdin =
        match execute fuel tree { data := dataInit, stdin := stdin, stdout := [] } with
        | .ok w => .ok { status := 0, stdout := w.stdout, diagnostic := none }
        | .exit1 e => .exit1 e
        | .undefined => .undefined
        | .outOfFuel => .outOfFuel := by
  obtain ⟨tree, ht⟩ := tokenizer_balanced_ok s1 h
  have h2 : tokenizer (s1 ++ ']' :: s2) (tokenInit .MAIN_BLOCK_TOKEN) = .ok (false, s2, tree) :=
    tokenizerLoop_append_close_of_eof _ _ s1 s2 _ _ [] tree ht (by omega)
  refine ⟨tree, ht, h2, ?_, ?_⟩
  · unfold main
    rw [ht, h2]
  · unfold main
    rw [h2]

set_option maxRecDepth 20000 in
/-- C19 on `+.` followed by `][`: the tree is that of `+.`, the `[` stays
unread and unreported, and the program writes the byte 1. -/
theorem tokenizer_top_level_close_witness :
    tokenizer ['+', '.', ']', '['] (tokenInit .MAIN_BLOCK_TOKEN) =
        .ok (false, ['['], Token.mk .MAIN_BLOCK_TOKEN 0
          (some [Token.mk .INCREMENT_TOKEN 1 none 0, Token.mk .OUTPUT_TOKEN 0 none 0]) 20) ∧
      main 2 ['+', '.', ']', '['] [] = .ok { status := 0, stdout := [1], diagnostic := none } := by
  obtain ⟨tree, h1, h2, h3, _⟩ :=
    tokenizer_top_level_close ['+', '.'] ['['] [] 2 (by decide)
  have htree : tree = Token.mk .MAIN_BLOCK_TOKEN 0
      (some [Token.mk .INCREMENT_TOKEN 1 none 0, Token.mk .OUTPUT_TOKEN 0 none 0]) 20 := by
    have h4 : tokenizer ['+', '.'] (tokenInit .MAIN_BLOCK_TOKEN) = .ok (true, [],
        Token.mk .MAIN_BLOCK_TOKEN 0
          (some [Token.mk .INCREMENT_TOKEN 1 none 0, Token.mk .OUTPUT_TOKEN 0 none 0]) 20) := rfl
    rw [h4] at h1
    simp only [Outcome.ok.injEq, Prod.mk.injEq, true_and] at h1
    exact h1.symm
  subst htree
  exact ⟨h2, h3.trans rfl⟩

/-! ## The kind of the parent does not matter to the parse -/

theorem withKind_isParent (p : Token) (t : TokenType) (v : Int) (hp : p.isParent)
    (ht : t = .MAIN_BLOCK_TOKEN ∨ t = .LOOP_TOKEN) : (p.withKind t v).isParent := by
  obtain ⟨pt, pv, cs, r⟩ := p
  exact ⟨ht, hp.2⟩

theorem tokenAppend_withKind (p c : Token) (t : TokenType) (v : Int) (hp : p.isParent)
    (ht : t = .MAIN_BLOCK_TOKEN ∨ t = .LOOP_TOKEN) :
    ∃ p' c', tokenAppend p c = .ok (p', c') ∧ p'.isParent ∧
      tokenAppend (p.withKind t v) c = .ok (p'.withKind t v, c') := by
  obtain ⟨pt, pv, cs, r⟩ := p
  have hpt := hp.1
  have hc := hp.2
  cases cs with
  | none => exact absurd rfl hc
  | some cs =>
    unfold tokenAppend
    by_cases hn : c.type = .NOOP_TOKEN
    · exact ⟨_, _, by rw [if_pos hn], hp, by rw [if_pos hn]⟩
    · rw [if_neg hn, if_neg hn]
      have h1 : ¬ ((Token.mk pt pv (some cs) r).type ≠ .MAIN_BLOCK_TOKEN ∧
          (Token.mk pt pv (some cs) r).type ≠ .LOOP_TOKEN) := by
        rcases hpt with h | h <;> simp [h]
      have h2 : ¬ (((Token.mk pt pv (some cs) r).withKind t v).type ≠ .MAIN_BLOCK_TOKEN ∧
          ((Token.mk pt pv (some cs) r).withKind t v).type ≠ .LOOP_TOKEN) := by
        rcases ht with h | h <;> simp [h, Token.withKind, Token.type]
      rw [if_neg h1, if_neg h2]
      exact ⟨_, _, rfl, ⟨hpt, by simp [Token.children]⟩, rfl⟩

theorem flushInit_withKind (p c : Token) (k t : TokenType) (v : Int) (hp : p.isParent)
    (ht : t = .MAIN_BLOCK_TOKEN ∨ t = .LOOP_TOKEN) :
    ∃ p' c', flushInit p c k = .ok (p', c') ∧ p'.isParent ∧
      flushInit (p.withKind t v) c k = .ok (p'.withKind t v, c') := by
  obtain ⟨p', c', h1, h2, h3⟩ := tokenAppend_withKind p c t v hp ht
  exact ⟨p', tokenInit k, by unfold flushInit; rw [h1], h2, by unfold flushInit; rw [h3]⟩

theorem startRun_withKind (p c : Token) (k t : TokenType) (v : Int) (hp : p.isParent)
    (ht : t = .MAIN_BLOCK_TOKEN ∨ t = .LOOP_TOKEN) :
    ∃ p' c', startRun p c k = .ok (p', c') ∧ p'.isParent ∧
      startRun (p.withKind t v) c k = .ok (p'.withKind t v, c') := by
  unfold startRun
  by_cases hk : c.type ≠ k
  · rw [if_pos hk, if_pos hk]
    exact flushInit_withKind p c k t v hp ht
  · rw [if_neg hk, if_neg hk]
    exact ⟨p, c, rfl, hp, rfl⟩

theorem switchStep_withKind (ch : Char) (p c : Token) (t : TokenType) (v : Int)
    (hp : p.isParent) (ht : t = .MAIN_BLOCK_TOKEN ∨ t = .LOOP_TOKEN) :
    ∃ p' c', switchStep ch p c = .ok (p', c') ∧ p'.isParent ∧
      switchStep ch (p.withKind t v) c = .ok (p'.withKind t v, c') := by
  unfold switchStep
  split_ifs
  · obtain ⟨p', c', h1, h2, h3⟩ := startRun_withKind p c .INCREMENT_TOKEN t v hp ht
    rw [h1, h3]; exact ⟨_, _, rfl, h2, rfl⟩
  · obtain ⟨p', c', h1, h2, h3⟩ := startRun_withKind p c .INCREMENT_TOKEN t v hp ht
    rw [h1, h3]; exact ⟨_, _, rfl, h2, rfl⟩
  · obtain ⟨p', c', h1, h2, h3⟩ := startRun_withKind p c .MOVE_TOKEN t v hp ht
    rw [h1, h3]; exact ⟨_, _, rfl, h2, rfl⟩
  · obtain ⟨p', c', h1, h2, h3⟩ := startRun_withKind p c .MOVE_TOKEN t v hp ht
    rw [h1, h3]; exact ⟨_, _, rfl, h2, rfl⟩
  · exact flushInit_withKind p c .INPUT_TOKEN t v hp ht
  · exact flushInit_withKind p c .OUTPUT_TOKEN t v hp ht
  · exact ⟨p, c, rfl, hp, rfl⟩

/-- Parsing into a container of another kind gives the same children: the
result is that of the original parent with the kind replaced. -/
theorem tokenizerLoop_withKind (t : TokenType) (v : Int)
    (ht : t = .MAIN_BLOCK_TOKEN ∨ t = .LOOP_TOKEN) :
    ∀ (fuel : Nat) (file : List Char) (p c : Token), p.isParent →
      tokenizerLoop fuel file (p.withKind t v) c =
        mapTree (fun q => q.withKind t v) (tokenizerLoop fuel file p c) := by
  intro fuel
  induction fuel with
  | zero => intro file p c _; rfl
  | succ n ih =>
    intro file p c hp
    cases file with
    | nil =>
      obtain ⟨p', c', h1, _, h3⟩ := tokenAppend_withKind p c t v hp ht
      rw [tokenizerLoop_nil, tokenizerLoop_nil, h1, h3]
      rfl
    | cons ch file =>
      by_cases hc1 : ch = ']'
      · subst hc1
        obtain ⟨p', c', h1, _, h3⟩ := tokenAppend_withKind p c t v hp ht
        rw [tokenizerLoop_close, tokenizerLoop_close, h1, h3]
        rfl
      · by_cases hc2 : ch = '['
        · subst hc2
          obtain ⟨p', c', h1, h2, h3⟩ := flushInit_withKind p c .LOOP_TOKEN t v hp ht
          rw [tokenizerLoop_open, tokenizerLoop_open, h1, h3]
          dsimp only
          cases hin : tokenizerLoop n file c' (tokenInit .NOOP_TOKEN) with
          | ok r =>
            obtain ⟨b2, file2, cur2⟩ := r
            cases b2 with
            | true => rfl
            | false => exact ih file2 p' cur2 h2
          | exit1 e => rfl
          | undefined => rfl
          | outOfFuel => rfl
        · obtain ⟨p', c', h1, h2, h3⟩ := switchStep_withKind ch p c t v hp ht
          rw [tokenizerLoop_switch n ch file _ c hc1 hc2,
            tokenizerLoop_switch n ch file p c hc1 hc2, h1, h3]
          exact ih file p' c' h2

/-! ## Nesting -/

/-- C16: for a balanced source `s`, with `tree` the root that parsing `s` into
a fresh root yields, parsing `[` ++ `s` ++ `]` into a fresh root returns
(status `true`, stream consumed) a root with exactly one child, a LOOP token
whose child array is that of `tree`: the same children in the same order. -/
theorem tokenizer_loop_nesting (s : List Char) (h : Balanced s) :
    ∃ tree, tokenizer s (tokenInit .MAIN_BLOCK_TOKEN) = .ok (true, [], tree) ∧
      tokenizer ('[' :: (s ++ [']'])) (tokenInit .MAIN_BLOCK_TOKEN) =
        .ok (true, [], Token.mk .MAIN_BLOCK_TOKEN 0
          (some [Token.mk .LOOP_TOKEN 0 tree.children tree.reservedChildren]) 20) := by
  obtain ⟨tree, ht⟩ := tokenizer_balanced_ok s h
  refine ⟨tree, ht, ?_⟩
  have hloop : tokenizerLoop (s.length + 1) s (tokenInit .LOOP_TOKEN) (tokenInit .NOOP_TOKEN) =
      .ok (true, [], tree.withKind .LOOP_TOKEN 0) := by
    have h1 := tokenizerLoop_withKind .LOOP_TOKEN 0 (Or.inr rfl) (s.length + 1) s
      (tokenInit .MAIN_BLOCK_TOKEN) (tokenInit .NOOP_TOKEN) tokenInit_main_isParent
    unfold tokenizer at ht
    rw [ht] at h1
    exact h1
  have hinner := tokenizerLoop_append_close_of_eof (s.length + 1) ((s ++ [']']).length + 1) s []
    (tokenInit .LOOP_TOKEN) (tokenInit .NOOP_TOKEN) [] _ hloop (by omega)
  unfold tokenizer
  rw [List.length_cons, tokenizerLoop_open]
  rw [show flushInit (tokenInit .MAIN_BLOCK_TOKEN) (tokenInit .NOOP_TOKEN) .LOOP_TOKEN =
    .ok (tokenInit .MAIN_BLOCK_TOKEN, tokenInit .LOOP_TOKEN) from rfl]
  dsimp only
  rw [hinner]
  dsimp only
  obtain ⟨n, hn⟩ : ∃ n, (s ++ [']']).length = n + 1 := ⟨s.length, by simp⟩
  rw [hn, tokenizerLoop_nil]
  rfl

/-- C16 on the balanced source `+.`: `[+.]` parses to a root whose only child
is a LOOP token with the two children of the parse of `+.`. -/
theorem tokenizer_loop_nesting_witness :
    tokenizer ['[', '+', '.', ']'] (tokenInit .MAIN_BLOCK_TOKEN) =
      .ok (true, [], Token.mk .MAIN_BLOCK_TOKEN 0
        (some [Token.mk .LOOP_TOKEN 0
          (some [Token.mk .INCREMENT_TOKEN 1 none 0, Token.mk .OUTPUT_TOKEN 0 none 0]) 20])
        20) := by
  obtain ⟨tree, h1, h2⟩ := tokenizer_loop_nesting ['+', '.'] (by decide)
  have htree : tree = Token.mk .MAIN_BLOCK_TOKEN 0
      (some [Token.mk .INCREMENT_TOKEN 1 none 0, Token.mk .OUTPUT_TOKEN 0 none 0]) 20 := by
    have h4 : tokenizer ['+', '.'] (tokenInit .MAIN_BLOCK_TOKEN) = .ok (true, [],
        Token.mk .MAIN_BLOCK_TOKEN 0
          (some [Token.mk .INCREMENT_TOKEN 1 none 0, Token.mk .OUTPUT_TOKEN 0 none 0]) 20) := rfl
    rw [h4] at h1
    simp only [Outcome.ok.injEq, Prod.mk.injEq, true_and] at h1
    exact h1.symm
  subst htree
  exact h2

/-! ## No NOOP token in the tree -/

theorem finalizedList_append (cs : List Token) (c : Token) :
    finalizedList (cs ++ [c]) = (finalizedList cs && c.finalized) := by
  induction cs with
  | nil => simp [finalizedList]
  | cons t ts ih => simp [finalizedList, ih, Bool.and_assoc]

theorem tokenInit_finalized (t : TokenType) (ht : t ≠ .NOOP_TOKEN) :
    (tokenInit t).finalized = true := by
  cases t <;> first | exact absurd rfl ht | rfl

theorem setValue_finalized (c : Token) (v : Int) (h : c.finalized = true) :
    (c.setValue v).finalized = true := by
  obtain ⟨t, w, cs, r⟩ := c
  cases cs with
  | none => simpa [Token.setValue, Token.finalized, Token.type, Token.children] using h
  | some cs => simpa [Token.setValue, Token.finalized, Token.type, Token.children] using h

theorem finalized_type_ne_noop (c : Token) (h : c.finalized = true) : c.type ≠ .NOOP_TOKEN := by
  obtain ⟨t, w, cs, r⟩ := c
  cases cs with
  | none => simpa [Token.finalized, Token.type] using h
  | some cs =>
    simp only [Token.finalized, Bool.and_eq_true, bne_iff_ne, ne_eq] at h
    exact h.1.1

theorem tokenAppend_finalized (p c p' c' : Token) (hp : p.finalized = true) (hc : Pending c)
    (h : tokenAppend p c = .ok (p', c')) : p'.finalized = true := by
  unfold tokenAppend at h
  by_cases hn : c.type = .NOOP_TOKEN
  · rw [if_pos hn] at h
    cases h
    exact hp
  · rw [if_neg hn] at h
    have hcf : c.finalized = true := hc.resolve_left hn
    split_ifs at h with h1
    obtain ⟨t, w, cs, r⟩ := p
    cases cs with
    | none => simp [Token.children] at h
    | some cs =>
      simp only [Token.children, Token.type, Token.value, Outcome.ok.injEq,
        Prod.mk.injEq] at h
      obtain ⟨rfl, _⟩ := h
      simp only [Token.finalized, Bool.and_eq_true] at hp ⊢
      rw [finalizedList_append]
      simp only [Bool.and_eq_true]
      exact ⟨hp.1, hp.2, hcf⟩

theorem flushInit_finalized (p c p' c' : Token) (t : TokenType) (ht : t ≠ .NOOP_TOKEN)
    (hp : p.finalized = true) (hc : Pending c) (h : flushInit p c t = .ok (p', c')) :
    p'.finalized = true ∧ c'.finalized = true := by
  unfold flushInit at h
  cases ha : tokenAppend p c with
  | ok a =>
    obtain ⟨p1, c1⟩ := a
    rw [ha] at h
    simp only [Outcome.ok.injEq, Prod.mk.injEq] at h
    obtain ⟨rfl, rfl⟩ := h
    exact ⟨tokenAppend_finalized p c _ _ hp hc ha, tokenInit_finalized t ht⟩
  | exit1 e => rw [ha] at h; cases h
  | undefined => rw [ha] at h; cases h
  | outOfFuel => rw [ha] at h; cases h

theorem startRun_finalized (p c p' c' : Token) (t : TokenType) (ht : t ≠ .NOOP_TOKEN)
    (hp : p.finalized = true) (hc : Pending c) (h : startRun p c t = .ok (p', c')) :
    p'.finalized = true ∧ c'.finalized = true := by
  unfold startRun at h
  by_cases hk : c.type ≠ t
  · rw [if_pos hk] at h
    exact flushInit_finalized p c p' c' t ht hp hc h
  · rw [if_neg hk] at h
    simp only [Outcome.ok.injEq, Prod.mk.injEq] at h
    obtain ⟨rfl, rfl⟩ := h
    have hct : c.type = t := by simpa using hk
    exact ⟨hp, hc.resolve_left (by rw [hct]; exact ht)⟩

theorem bump_finalized (o : Outcome (Token × Token)) (f : Token → Token) (p' c' : Token)
    (hf : ∀ c, c.finalized = true → (f c).finalized = true)
    (ho : ∀ p1 c1, o = .ok (p1, c1) → p1.finalized = true ∧ c1.finalized = true)
    (h : (match o with
      | .ok (p, cur) => Outcome.ok (p, f cur)
      | .exit1 e => .exit1 e
      | .undefined => .undefined
      | .outOfFuel => .outOfFuel) = .ok (p', c')) :
    p'.finalized = true ∧ c'.finalized = true := by
  cases o with
  | ok a =>
    obtain ⟨p1, c1⟩ := a
    simp only [Outcome.ok.injEq, Prod.mk.injEq] at h
    obtain ⟨rfl, rfl⟩ := h
    have := ho p1 c1 rfl
    exact ⟨this.1, hf _ this.2⟩
  | exit1 e => cases h
  | undefined => cases h
  | outOfFuel => cases h

theorem switchStep_finalized (ch : Char) (p c p' c' : Token)
    (hp : p.finalized = true) (hc : Pending c) (h : switchStep ch p c = .ok (p', c')) :
    p'.finalized = true ∧ Pending c' := by
  unfold switchStep at h
  split_ifs at h
  · have := bump_finalized _ _ p' c' (fun c hc => setValue_finalized c _ hc)
      (fun p1 c1 ho => startRun_finalized p c p1 c1 _ (by decide) hp hc ho) h
    exact ⟨this.1, Or.inr this.2⟩
  · have := bump_finalized _ _ p' c' (fun c hc => setValue_finalized c _ hc)
      (fun p1 c1 ho => startRun_finalized p c p1 c1 _ (by decide) hp hc ho) h
    exact ⟨this.1, Or.inr this.2⟩
  · have := bump_finalized _ _ p' c' (fun c hc => setValue_finalized c _ hc)
      (fun p1 c1 ho => startRun_finalized p c p1 c1 _ (by decide) hp hc ho) h
    exact ⟨this.1, Or.inr this.2⟩
  · have := bump_finalized _ _ p' c' (fun c hc => setValue_finalized c _ hc)
      (fun p1 c1 ho => startRun_finalized p c p1 c1 _ (by decide) hp hc ho) h
    exact ⟨this.1, Or.inr this.2⟩
  · have := flushInit_finalized p c p' c' _ (by decide) hp hc h
    exact ⟨this.1, Or.inr this.2⟩
  · have := flushInit_finalized p c p' c' _ (by decide) hp hc h
    exact ⟨this.1, Or.inr this.2⟩
  · simp only [Outcome.ok.injEq, Prod.mk.injEq] at h
    obtain ⟨rfl, rfl⟩ := h
    exact ⟨hp, hc⟩

/-- A finalized parent stays finalized through the tokenizer loop. -/
theorem tokenizerLoop_finalized :
    ∀ (fuel : Nat) (file : List Char) (parent current : Token) (b : Bool) (rest : List Char)
      (p : Token), parent.finalized = true → Pending current →
      tokenizerLoop fuel file parent current = .ok (b, rest, p) → p.finalized = true := by
  intro fuel
  induction fuel with
  | zero => intro file parent current b rest p _ _ h; simp [tokenizerLoop] at h
  | succ n ih =>
    intro file parent current b rest p hp hc h
    cases file with
    | nil =>
      rw [tokenizerLoop_nil] at h
      cases ha : tokenAppend parent current with
      | ok a =>
        obtain ⟨p1, c1⟩ := a
        rw [ha] at h
        simp only [Outcome.ok.injEq, Prod.mk.injEq] at h
        obtain ⟨_, _, rfl⟩ := h
        exact tokenAppend_finalized parent current _ _ hp hc ha
      | exit1 e => rw [ha] at h; cases h
      | undefined => rw [ha] at h; cases h
      | outOfFuel => rw [ha] at h; cases h
    | cons c file =>
      by_cases h1 : c = ']'
      · subst h1
        rw [tokenizerLoop_close] at h
        cases ha : tokenAppend parent current with
        | ok a =>
          obtain ⟨p1, c1⟩ := a
          rw [ha] at h
          simp only [Outcome.ok.injEq, Prod.mk.injEq] at h
          obtain ⟨_, _, rfl⟩ := h
          exact tokenAppend_finalized parent current _ _ hp hc ha
        | exit1 e => rw [ha] at h; cases h
        | undefined => rw [ha] at h; cases h
        | outOfFuel => rw [ha] at h; cases h
      · by_cases h2 : c = '['
        · subst h2
          rw [tokenizerLoop_open] at h
          cases hfl : flushInit parent current .LOOP_TOKEN with
          | ok a =>
            obtain ⟨p1, cur1⟩ := a
            rw [hfl] at h
            dsimp only at h
            have hf := flushInit_finalized parent current p1 cur1 _ (by decide) hp hc hfl
            cases hin : tokenizerLoop n file cur1 (tokenInit .NOOP_TOKEN) with
            | ok r =>
              obtain ⟨b2, file2, cur2⟩ := r
              rw [hin] at h
              cases b2 with
              | true => cases h
              | false =>
                dsimp only at h
                have hcur2 := ih file cur1 (tokenInit .NOOP_TOKEN) _ _ _ hf.2 (Or.inl rfl) hin
                exact ih file2 p1 cur2 b rest p hf.1 (Or.inr hcur2) h
            | exit1 e => rw [hin] at h; cases h
            | undefined => rw [hin] at h; cases h
            | outOfFuel => rw [hin] at h; cases h
          | exit1 e => rw [hfl] at h; cases h
          | undefined => rw [hfl] at h; cases h
          | outOfFuel => rw [hfl] at h; cases h
        · rw [tokenizerLoop_switch n c file parent current h1 h2] at h
          cases hs : switchStep c parent current with
          | ok a =>
            obtain ⟨p1, cur1⟩ := a
            rw [hs] at h
            have hf := switchStep_finalized c parent current p1 cur1 hp hc hs
            exact ih file p1 cur1 b rest p hf.1 hf.2 h
          | exit1 e => rw [hs] at h; cases h
          | undefined => rw [hs] at h; cases h
          | outOfFuel => rw [hs] at h; cases h

/-- C17: whenever the tokenizer returns on a source parsed into a fresh root
(either status, so not the unterminated-loop exit), the tree is finalized: no
token of kind NOOP at any depth, and the only tokens with a child array are
MAIN_BLOCK and LOOP tokens. -/
theorem tokenizer_finalized (file : List Char) (status : Bool) (rest : List Char)
    (tree : Token)
    (hret : tokenizer file (tokenInit .MAIN_BLOCK_TOKEN) = .ok (status, rest, tree)) :
    tree.finalized = true :=
  tokenizerLoop_finalized _ file (tokenInit .MAIN_BLOCK_TOKEN) (tokenInit .NOOP_TOKEN) status rest
    tree rfl (Or.inl rfl) hret

/-- C17 on the source `+[->,<].` (with a comment character): the tree is
finalized. -/
theorem tokenizer_finalized_witness :
    (Token.mk .MAIN_BLOCK_TOKEN 0
      (some [Token.mk .INCREMENT_TOKEN 1 none 0,
        Token.mk .LOOP_TOKEN 0
          (some [Token.mk .INCREMENT_TOKEN (-1) none 0, Token.mk .MOVE_TOKEN 1 none 0,
            Token.mk .INPUT_TOKEN 0 none 0, Token.mk .MOVE_TOKEN (-1) none 0]) 20,
        Token.mk .OUTPUT_TOKEN 0 none 0]) 20).finalized = true :=
  tokenizer_finalized ['+', '[', '-', '>', ',', 'x', '<', ']', '.'] true [] _ rfl

/-! ## Collapsed runs against single steps -/

theorem forChildren_increment_steps (s : Int) (hs : s = 1 ∨ s = -1) (fuel : Nat) (n : Nat) :
    ∀ (w : World) (x : Nat), dataGet w.data = .ok x →
      forChildren (execute (fuel + 1))
          (List.replicate (n + 1) (Token.mk .INCREMENT_TOKEN s none 0)) w =
        .ok { w with data := { w.data with
          numbers := w.data.numbers.set w.data.position.toNat
            (some (((x : Int) + s * ((n : Int) + 1)) % 256).toNat) } } := by
  induction n with
  | zero =>
    intro w x hcell
    simp only [List.replicate, forChildren]
    rw [execute_increment_eq fuel (Token.mk .INCREMENT_TOKEN s none 0) w rfl]
    simp only [Token.value]
    rw [dataIncrement_eq_ok hcell]
    have : ((s + (x : Int)) % 256).toNat = (((x : Int) + s * (((0 : Nat) : Int) + 1)) % 256).toNat := by
      congr 2
      push_cast
      ring
    rw [this]
  | succ n ih =>
    intro w x hcell
    rw [List.replicate_succ, forChildren,
      execute_increment_eq fuel (Token.mk .INCREMENT_TOKEN s none 0) w rfl]
    simp only [Token.value]
    rw [dataIncrement_eq_ok hcell]
    dsimp only
    rw [ih _ _ (dataGet_set hcell _)]
    dsimp only
    rw [List.set_set]
    have : ((((((s + (x : Int)) % 256).toNat : Nat) : Int) + s * ((n : Int) + 1)) % 256).toNat =
        (((x : Int) + s * (((n + 1 : Nat) : Int) + 1)) % 256).toNat := by
      rcases hs with rfl | rfl <;> push_cast <;> omega
    rw [this]

/-- The part of C15 that holds: on a tape whose current cell is defined, the
collapsed token INCREMENT(n) resp. INCREMENT(-n) of a run of `n ≥ 1` symbols
`+` resp. `-` leaves the same world as `n` tokens INCREMENT(1) resp.
INCREMENT(-1) executed one after another. -/
theorem increment_run_eq_single_steps (s : Int) (hs : s = 1 ∨ s = -1) (fuel n : Nat)
    (w : World) (x : Nat) (hcell : dataGet w.data = .ok x) :
    forChildren (execute (fuel + 1))
        (List.replicate (n + 1) (Token.mk .INCREMENT_TOKEN s none 0)) w =
      execute (fuel + 1) (Token.mk .INCREMENT_TOKEN (s * ((n : Int) + 1)) none 0) w := by
  rw [forChildren_increment_steps s hs fuel n w x hcell,
    execute_increment_eq fuel (Token.mk .INCREMENT_TOKEN (s * ((n : Int) + 1)) none 0) w rfl]
  simp only [Token.value]
  rw [dataIncrement_eq_ok hcell]
  have : ((s * ((n : Int) + 1) + (x : Int)) % 256).toNat =
      (((x : Int) + s * ((n : Int) + 1)) % 256).toNat := by
    congr 2
    ring
  rw [this]

set_option maxRecDepth 20000 in
/-- C15 fails on the code for moves: from the initial tape the collapsed token
MOVE(300) of a run of 300 `>` grows the tape once (size 400, position 400),
while 300 tokens MOVE(1) grow it twice (size 600, position 400); likewise the
token MOVE(-102) the tokenizer makes of 102 `<` gives size 400 and 102 tokens
MOVE(-1) give size 600. -/
theorem move_run_differs_from_single_steps :
    execute 1 (Token.mk .MOVE_TOKEN 300 none 0)
          { data := dataInit, stdin := [], stdout := [] } =
        .ok { data := { numbers := dataInit.numbers ++ List.replicate 200 (some 0),
                        position := 400, size := 400 },
              stdin := [], stdout := [] } ∧
      forChildren (execute 1) (List.replicate 300 (Token.mk .MOVE_TOKEN 1 none 0))
          { data := dataInit, stdin := [], stdout := [] } =
        .ok { data := { numbers := dataInit.numbers ++ List.replicate 400 (some 0),
                        position := 400, size := 600 },
              stdin := [], stdout := [] } ∧
      tokenizer (List.replicate 102 '<') (tokenInit .MAIN_BLOCK_TOKEN) =
        .ok (true, [], Token.mk .MAIN_BLOCK_TOKEN 0
          (some [Token.mk .MOVE_TOKEN (-102) none 0]) 20) ∧
      execute 1 (Token.mk .MOVE_TOKEN (-102) none 0)
          { data := dataInit, stdin := [], stdout := [] } =
        .ok { data := { numbers := dataInit.numbers ++ List.replicate 200 (some 0),
                        position := -2, size := 400 },
              stdin := [], stdout := [] } ∧
      forChildren (execute 1) (List.replicate 102 (Token.mk .MOVE_TOKEN (-1) none 0))
          { data := dataInit, stdin := [], stdout := [] } =
        .ok { data := { numbers := dataInit.numbers ++ List.replicate 400 (some 0),
                        position := -2, size := 600 },
              stdin := [], stdout := [] } :=
  ⟨rfl, rfl, rfl, rfl, rfl⟩

/-! ## Appending to a parent that cannot take children -/

/-- C18 (amended): for a child that is not a NOOP token, `tokenAppend` ends
with a fatal exit when the parent is not a MAIN_BLOCK or LOOP token (first
diagnostic) and when the parent is one but its `children` pointer is NULL
(second diagnostic); it does not return. -/
theorem tokenAppend_bad_parent (parent child : Token) (hchild : child.type ≠ .NOOP_TOKEN) :
    ((parent.type ≠ .MAIN_BLOCK_TOKEN ∧ parent.type ≠ .LOOP_TOKEN) →
        tokenAppend parent child = .exit1 .parentNotContainer) ∧
      ((parent.type = .MAIN_BLOCK_TOKEN ∨ parent.type = .LOOP_TOKEN) →
        parent.children = none → tokenAppend parent child = .exit1 .childrenNull) := by
  constructor
  · intro h
    unfold tokenAppend
    rw [if_neg hchild, if_pos h]
  · intro h hnull
    unfold tokenAppend
    rw [if_neg hchild, if_neg (by rcases h with h | h <;> simp [h]), hnull]

/-- C18 (amended) on an INPUT token appended to an OUTPUT token, and to a LOOP
token whose children were never allocated. -/
theorem tokenAppend_bad_parent_witness :
    tokenAppend (tokenInit .OUTPUT_TOKEN) (tokenInit .INPUT_TOKEN) =
        .exit1 .parentNotContainer ∧
      tokenAppend (Token.mk .LOOP_TOKEN 0 none 0) (tokenInit .INPUT_TOKEN) =
        .exit1 .childrenNull :=
  ⟨(tokenAppend_bad_parent (tokenInit .OUTPUT_TOKEN) (tokenInit .INPUT_TOKEN)
      (by decide)).1 (by decide),
    (tokenAppend_bad_parent (Token.mk .LOOP_TOKEN 0 none 0) (tokenInit .INPUT_TOKEN)
      (by decide)).2 (by decide) rfl⟩

/-- C18 as stated fails: a NOOP child appended to a leaf parent, or to a
container whose children are NULL, makes `tokenAppend` return at its first
line, the parent untouched and no fatal exit. -/
theorem tokenAppend_noop_child_counterexample :
    tokenAppend (tokenInit .OUTPUT_TOKEN) (tokenInit .NOOP_TOKEN) =
        .ok (tokenInit .OUTPUT_TOKEN, tokenInit .NOOP_TOKEN) ∧
      tokenAppend (Token.mk .LOOP_TOKEN 0 none 0) (tokenInit .NOOP_TOKEN) =
        .ok (Token.mk .LOOP_TOKEN 0 none 0, tokenInit .NOOP_TOKEN) :=
  ⟨rfl, rfl⟩

/-! ## The cell a loop leaves -/

theorem execute_loop_exit_aux (fuel : Nat) :
    ∀ (token : Token) (w w' : World), token.type = .LOOP_TOKEN →
      execute fuel token w = .ok w' → dataGet w'.data = .ok 0 := by
  induction fuel with
  | zero => intro token w w' _ h; simp [execute] at h
  | succ n ih =>
    intro token w w' htype h
    rw [execute_loop_eq n token w htype] at h
    cases hg : dataGet w.data with
    | ok x =>
      rw [hg] at h
      dsimp only at h
      by_cases hx : x = 0
      · subst hx
        simp only [ne_eq, not_true_eq_false, if_false] at h
        cases h
        exact hg
      · simp only [ne_eq, hx, not_false_eq_true, if_true] at h
        cases hb : forChildren (execute n) token.childList w with
        | ok w1 =>
          rw [hb] at h
          exact ih token w1 w' htype h
        | exit1 e => rw [hb] at h; cases h
        | undefined => rw [hb] at h; cases h
        | outOfFuel => rw [hb] at h; cases h
    | exit1 e => rw [hg] at h; cases h
    | undefined => rw [hg] at h; cases h
    | outOfFuel => rw [hg] at h; cases h

/-- C20: whenever `execute` on a LOOP token returns normally, the position of
the resulting tape is an index of a written cell and that cell holds 0. -/
theorem execute_loop_exit (fuel : Nat) (token : Token) (w w' : World)
    (htype : token.type = .LOOP_TOKEN) (hret : execute fuel token w = .ok w') :
    dataGet w'.data = .ok 0 :=
  execute_loop_exit_aux fuel token w w' htype hret

set_option maxRecDepth 20000 in
/-- C20 on the loop `[-]` run on the initial tape with 1 in the current cell:
`execute` returns and the current cell of the tape it returns holds 0. -/
theorem execute_loop_exit_witness :
    execute 3 (Token.mk .LOOP_TOKEN 0 (some [Token.mk .INCREMENT_TOKEN (-1) none 0]) 20)
        { data := { dataInit with numbers := dataInit.numbers.set 100 (some 1) },
          stdin := [], stdout := [] } =
      .ok { data := dataInit, stdin := [], stdout := [] } ∧
    dataGet dataInit = .ok 0 :=
  ⟨by rfl, execute_loop_exit 3
    (Token.mk .LOOP_TOKEN 0 (some [Token.mk .INCREMENT_TOKEN (-1) none 0]) 20)
    { data := { dataInit with numbers := dataInit.numbers.set 100 (some 1) },
      stdin := [], stdout := [] }
    { data := dataInit, stdin := [], stdout := [] } rfl (by rfl)⟩

end Brainfuck
